import Mathlib

/-!
Verification of the qooxdoo-compiler class analyser
(`src/lib/qx/tool/compiler/Analyser.js`) against its natural-language
specification.

The JavaScript is embedded shallowly:

* JS objects used as string-keyed maps become insertion-ordered association
  lists `List (String × α)`; `obj[k]` is `jsGet k l` (first match) and
  `obj[k] = v` is `jsSet l k v` (update in place, else append), matching the
  enumeration-order semantics of plain JS objects.
* Absent/`null`/`undefined` JS values become `Option`; JS string truthiness
  (`undefined`, `null` and `""` are falsy) is `jsTruthy`.
* The inheritance walk of `analyseClassEntities` resolves ancestor names
  through `loadMetaData`; here an ancestor reference is the already-resolved
  meta.  A reference whose `loadMetaData` returns `null` (the synthetic roots
  `Object`/`Array`/`Error`, or a failed read) makes the walk return with no
  effect, so such references are modelled by omitting them from the ancestor
  lists.  `meta.superClass` may be a single name or (for interfaces) an array;
  the walk treats both identically in order, so both are a `List MetaTree`.
* The analyser has no cycle detection: on cyclic input the JS recursion
  diverges.  The tree model covers exactly the terminating (acyclic) runs.
-/

namespace Analyser

/-- `obj[k]` on a JS object modelled as an ordered association list:
the first binding of `k`, if any. -/
def jsGet (k : String) : List (String × α) → Option α
  | [] => none
  | (k', v) :: rest => if k' = k then some v else jsGet k rest

/-- `obj[k] = v` on a JS object: update the existing binding in place
(keeping its position), otherwise append a new binding. -/
def jsSet : List (String × α) → String → α → List (String × α)
  | [], k, v => [(k, v)]
  | (k', v') :: rest, k, v =>
    if k' = k then (k, v) :: rest else (k', v') :: jsSet rest k v

/-- JS truthiness of a string-valued slot: `undefined`/`null` and `""` are
falsy, every other string is truthy. -/
def jsTruthy : Option String → Bool
  | none => false
  | some s => !(s == "")

/-- `x || null` on a string-valued slot: a falsy value collapses to `null`. -/
def jsOrNull (o : Option String) : Option String :=
  if jsTruthy o then o else none

/-- One parsed JSDoc tag (an element of the arrays stored under `@description`,
`@param`, `@return`). -/
structure DocTag where
  name : String
  body : String := ""
  type : String := ""
  paramName : String := ""
  desc : String := ""
deriving DecidableEq, Repr

/-- A member/property JSDoc object.  The JS object keys `@description`,
`@param`, `@return` hold arrays of tags; an absent key is the empty list
(the code only ever tests the keys through `jsdoc[k] && jsdoc[k].length`,
for which absent and empty coincide). -/
structure JsDoc where
  description : List DocTag := []
  params : List DocTag := []
  returns : List DocTag := []
deriving DecidableEq, Repr

/-- `hasSignature(jsdoc)` from `updateMetaData`: true when the jsdoc exists and
has a non-empty `@param` or `@return` array. -/
def hasSignature : Option JsDoc → Bool
  | none => false
  | some d => !d.params.isEmpty || !d.returns.isEmpty

/-- The value stored under `appearsIn` on an entry of a saved meta.  The code
usually stores `Object.keys(...)` (an array of class names), but the
refine-property path at line 682 assigns the raw `appearsIn` *object* of the
working table, so both shapes occur. -/
inductive AppearsVal where
  | arr (xs : List String)
  | obj (m : List (String × String))
deriving DecidableEq, Repr

/-- JS truthiness of `x.length` for an `appearsIn` value: an array is truthy
iff non-empty; a plain object has no `length` (undefined, falsy). -/
def jsLenTruthy : AppearsVal → Bool
  | .arr xs => !xs.isEmpty
  | .obj _ => false

/-- An entry of a meta file's `members` or `properties` section (also the shape
of the entries materialized by `updateMetaData`).  Fields the JS leaves
`undefined` default to `none` / `false` / `[]`. -/
structure EntityMeta where
  type : String := "function"
  name : String := ""
  property : Option String := none
  jsdoc : Option JsDoc := none
  check : Option String := none
  async : Bool := false
  refine : Bool := false
  mixin : Bool := false
  abstract : Bool := false
  inherited : Bool := false
  access : String := "public"
  appearsIn : Option AppearsVal := none
  overriddenFrom : Option String := none
deriving DecidableEq, Repr

/-- The per-class data of one meta file used by the entity merge:
`className`, `type` (`"class"`/`"interface"`/`"mixin"`), the `abstract` flag,
and the `members`/`properties` sections (`properties` is `none` when the key
is absent from the meta — `updateMetaData` line 675 tests `if (meta.properties)`). -/
structure NodeData where
  className : String := ""
  type : String := "class"
  abstract : Bool := false
  members : List (String × EntityMeta) := []
  properties : Option (List (String × EntityMeta)) := none
deriving DecidableEq, Repr

/-- A class meta with its resolved ancestor references: the shape walked by
`analyseClassEntities` (recurse into `interfaces`, then `mixins`, then
`superClass`). -/
inductive MetaTree where
  | node (data : NodeData) (interfaces : List MetaTree) (mixins : List MetaTree)
      (superClass : List MetaTree)

/-- The data record of a meta tree's root. -/
def MetaTree.data : MetaTree → NodeData
  | .node d _ _ _ => d

/-- A row of the working table `classEntities.members` / `classEntities.properties`
built by `analyseClassEntities`.  `appearsIn` is the JS object mapping an
ancestor class name to that ancestor's `type`. -/
structure EntityInfo where
  appearsIn : List (String × String) := []
  overriddenFrom : Option String := none
  jsdoc : Option JsDoc := none
  abstract : Bool := false
  mixin : Bool := false
  inherited : Bool := false
  access : String := "public"
  property : Option String := none
  interfaceFlag : Bool := false
deriving DecidableEq, Repr

/-- The working table `classEntities = \x7bmembers:\x7b\x7d, properties:\x7b\x7d\x7d`. -/
structure ClassEntities where
  members : List (String × EntityInfo) := []
  properties : List (String × EntityInfo) := []
deriving DecidableEq, Repr

/-- Access classification from the entity name (line 513):
leading `__` is private, leading `_` protected, else public.
(`entityName.startsWith(p)` is the character-prefix test, written here over
the character lists.) -/
def accessOf (n : String) : String :=
  if "__".data.isPrefixOf n.data then "private"
  else if "_".data.isPrefixOf n.data then "protected"
  else "public"

/-- The update applied to one working-table row by the body of the entity loop
of `analyseClassEntities` (lines 504-537), given the row's previous value
(`none` when the entry is seen for the first time).  `first` is true only for
the top-level call on the class itself. -/
def entityUpd (first : Bool) (d : NodeData) (entityName : String)
    (prev : Option EntityInfo) (em : EntityMeta) : EntityInfo :=
  let entityInfo : EntityInfo :=
    match prev with
    | some e => e
    | none =>
      { appearsIn := [], overriddenFrom := none, jsdoc := none,
        abstract := d.type == "interface", mixin := d.type == "mixin",
        inherited := !first, access := accessOf entityName }
  let entityInfo :=
    if jsTruthy em.property then { entityInfo with property := em.property }
    else entityInfo
  let entityInfo :=
    if d.type == "mixin" && entityInfo.abstract then { entityInfo with mixin := true }
    else entityInfo
  let entityInfo :=
    if !(d.type == "interface") then { entityInfo with abstract := false }
    else { entityInfo with interfaceFlag := true }
  let entityInfo :=
    if !first then { entityInfo with appearsIn := jsSet entityInfo.appearsIn d.className d.type }
    else entityInfo
  let entityInfo :=
    if !first && entityInfo.overriddenFrom.isNone then
      { entityInfo with overriddenFrom := some d.className }
    else entityInfo
  if entityInfo.jsdoc.isNone && hasSignature em.jsdoc then
    { entityInfo with jsdoc := em.jsdoc }
  else entityInfo

/-- One iteration of the entity loop (lines 501-539) over a section table:
entries of the `members` section are processed only when `type === "function"`;
every `properties` entry is processed. -/
def recordEntity (entityTypeName : String) (first : Bool) (d : NodeData)
    (tbl : List (String × EntityInfo)) (entityName : String) (em : EntityMeta) :
    List (String × EntityInfo) :=
  if em.type == "function" || entityTypeName == "properties" then
    jsSet tbl entityName (entityUpd first d entityName (jsGet entityName tbl) em)
  else tbl

/-- Recording of one visited meta's own entities into the working table:
the `["members", "properties"].forEach` loop of `analyseClassEntities`
(lines 496-540).  The `members` section only touches `classEntities.members`
and the `properties` section only `classEntities.properties`; an absent
`properties` key makes the loop body return early, which coincides with the
empty list. -/
def recordNode (first : Bool) (d : NodeData) (st : ClassEntities) : ClassEntities :=
  let mems := d.members.foldl
    (fun t p => recordEntity "members" first d t p.1 p.2) st.members
  let props := (d.properties.getD []).foldl
    (fun t p => recordEntity "properties" first d t p.1 p.2) st.properties
  { members := mems, properties := props }

/-- The synthesized getter `@description` body (lines 609-611), exactly as
concatenated in the source. -/
def getterDescText (p : String) : String :=
  "Gets the (computed) value of the property <code>" ++ p ++ "</code>.\n" ++
  "\n" ++
  "For further details take a look at the property definition: \x7b@link #" ++ p ++ "\x7d."

/-- The synthesized setter `@description` body (lines 618-620). -/
def setterDescText (p : String) : String :=
  "Sets the user value of the property <code>" ++ p ++ "</code>.\n" ++
  "\n" ++
  "For further details take a look at the property definition: \x7b@link #" ++ p ++ "\x7d."

/-- The synthesized reset `@description` body (lines 623-628). -/
def resetDescText (p : String) : String :=
  "Resets the user value of the property <code>" ++ p ++ "</code>.\n" ++
  "\n" ++
  "The computed value falls back to the next available value e.g. appearance, init or inheritance value " ++
  "depending on the property configuration and value availability.\n" ++
  "\n" ++
  "For further details take a look at the property definition: \x7b@link #" ++ p ++ "\x7d."

/-- The synthesized async getter `@description` body (lines 631-633). -/
def asyncGetterDescText (p : String) : String :=
  "Returns a \x7b@link qx.Promise\x7d which resolves to the (computed) value of the property <code>" ++ p ++ "</code>." ++
  "\n" ++
  "For further details take a look at the property definition: \x7b@link #" ++ p ++ "\x7d."

/-- The synthesized async setter `@description` body (lines 639-642). -/
def asyncSetterDescText (p : String) : String :=
  "Sets the user value of the property <code>" ++ p ++ "</code>, returns a \x7b@link qx.Promise\x7d " ++
  "which resolves when the value change has fully completed (in the case where there are asynchronous apply methods or events).\n" ++
  "\n" ++
  "For further details take a look at the property definition: \x7b@link #" ++ p ++ "\x7d."

/-- `addPropertyAccessor` (lines 564-603): synthesize a member entry for one
accessor unless a concrete (non-abstract) row already exists.  The replacement
row's `overriddenFrom` is `(entityInfo && entityInfo.appearsIn[0]) || null`:
`appearsIn` is keyed by class *names*, so `[0]` reads the key `"0"`. -/
def addPropertyAccessor (first : Bool) (mtbl : List (String × EntityInfo))
    (propertyMeta : EntityMeta) (methodName accessorType : String)
    (returnType valueType : Option String) (desc : String) :
    List (String × EntityInfo) :=
  let entityInfo := jsGet methodName mtbl
  if entityInfo.isNone || (entityInfo.map (·.abstract)).getD false then
    let newInfo : EntityInfo :=
      { appearsIn := match entityInfo with | some e => e.appearsIn | none => []
        overriddenFrom := jsOrNull (entityInfo.bind (fun e => jsGet "0" e.appearsIn))
        jsdoc := some
          { description := [{ name := "@description", body := desc }]
            returns :=
              if jsTruthy returnType then
                [{ name := "@return", type := returnType.getD ""
                   desc := "Returns the value for " ++ propertyMeta.name }]
              else []
            params :=
              if jsTruthy valueType then
                [{ name := "@param", type := valueType.getD "", paramName := "value"
                   desc := "Value for " ++ propertyMeta.name }]
              else [] }
        property := some accessorType
        inherited := !first
        mixin := propertyMeta.mixin
        access := "public" }
    jsSet mtbl methodName newInfo
  else mtbl

/-- The accessor-synthesis body for one property of a visited meta
(lines 604-644): `get`/`is` (Boolean only)/`set`/`reset`, plus the async
variants when the property is declared `async`.  The type is
`propertyMeta.check || "any"`. -/
def synthesizeForProperty (first : Bool) (mtbl : List (String × EntityInfo))
    (propertyName : String) (pm : EntityMeta) : List (String × EntityInfo) :=
  let upname := propertyName.capitalize
  let type := if jsTruthy pm.check then pm.check.getD "" else "any"
  let msg := getterDescText propertyName
  let mtbl := addPropertyAccessor first mtbl pm ("get" ++ upname) "get" (some type) none msg
  let mtbl :=
    if type == "Boolean" then
      addPropertyAccessor first mtbl pm ("is" ++ upname) "is" (some type) none msg
    else mtbl
  let mtbl := addPropertyAccessor first mtbl pm ("set" ++ upname) "set" none (some type)
    (setterDescText propertyName)
  let mtbl := addPropertyAccessor first mtbl pm ("reset" ++ upname) "reset" none none
    (resetDescText propertyName)
  if pm.async then
    let amsg := asyncGetterDescText propertyName
    let mtbl := addPropertyAccessor first mtbl pm ("get" ++ upname ++ "Async") "getAsync"
      (some "Promise") none amsg
    let mtbl :=
      if type == "Boolean" then
        addPropertyAccessor first mtbl pm ("is" ++ upname ++ "Async") "isAsync"
          (some "Promise") none amsg
      else mtbl
    addPropertyAccessor first mtbl pm ("set" ++ upname ++ "Async") "setAsync"
      (some "Promise") (some type) (asyncSetterDescText propertyName)
  else mtbl

/-- The `if (meta.properties)` accessor-synthesis block at the end of
`analyseClassEntities` (lines 563-645), which runs for *every* visited meta,
after the recursion into its ancestors. -/
def synthNode (first : Bool) (d : NodeData) (st : ClassEntities) : ClassEntities :=
  match d.properties with
  | none => st
  | some props =>
    { st with members :=
        props.foldl (fun t p => synthesizeForProperty first t p.1 p.2) st.members }

mutual

/-- `analyseClassEntities(meta, first)` (lines 488-646): record the meta's own
entities, recurse into interfaces, then mixins, then the super class(es), then
synthesize property accessors for this meta's properties. -/
def walkOne (first : Bool) (st : ClassEntities) : MetaTree → ClassEntities
  | .node d ifs mxs sups =>
    let st := recordNode first d st
    let st := walkList st ifs
    let st := walkList st mxs
    let st := walkList st sups
    synthNode first d st

/-- Sequential recursion of `analyseClassEntities` over a list of resolved
ancestor references (each recursive call passes no `first`, i.e. `false`). -/
def walkList (st : ClassEntities) : List MetaTree → ClassEntities
  | [] => st
  | m :: rest => walkList (walkOne false st m) rest

end

/-- The full entity merge for one class: `await analyseClassEntities(meta, true)`
starting from the empty working table (line 673). -/
def analyseEntities (root : MetaTree) : ClassEntities :=
  walkOne true {} root

/-! ## Write-back of the merged table into the class's meta
(`updateMetaData`, lines 675-777). -/

/-- `mergeSignature(src, meta)` (lines 654-671): copy `@param`/`@return` from
`src` into the entry's jsdoc only when `src` has a signature and the entry does
not.  Copying a key is `if (src["@param"]) ...`, i.e. gated on the array being
present; with absent-as-empty this is the non-empty test. -/
def mergeSignature (src : Option JsDoc) (m : EntityMeta) : EntityMeta :=
  match src with
  | none => m
  | some s =>
    if !hasSignature (some s) || hasSignature m.jsdoc then m
    else
      let d := m.jsdoc.getD {}
      let d := if !s.params.isEmpty then { d with params := s.params } else d
      let d := if !s.returns.isEmpty then { d with returns := s.returns } else d
      { m with jsdoc := some d }

/-- The body of the refine-property fixup loop (lines 678-685) for one
property entry. -/
def applyRefineEntry (ceProps : List (String × EntityInfo)) (n : String)
    (pm : EntityMeta) : EntityMeta :=
  if pm.refine then
    match jsGet n ceProps with
    | some r =>
      mergeSignature r.jsdoc
        { pm with overriddenFrom := r.overriddenFrom
                  appearsIn := some (.obj r.appearsIn) }
    | none => pm
  else pm

/-- The refine-property fixup loop (lines 676-686): every property declared
with `refine` whose name has a row in the working table receives that row's
`overriddenFrom` and (raw object) `appearsIn`, and the missing jsdoc signature
is merged. -/
def applyRefine (ceProps : List (String × EntityInfo))
    (props : List (String × EntityMeta)) : List (String × EntityMeta) :=
  props.map (fun p => (p.1, applyRefineEntry ceProps p.1 p.2))

/-- JS truthiness of `x.length` where `x` is the working table's `appearsIn`,
a plain object: `length` is `undefined`, hence falsy.  (This is the dead
branch at lines 699 and 751: the source tests `propertyInfo.appearsIn.length`
on an object, so `Object.keys` is never copied there.) -/
def objLenTruthy (_ : List (String × String)) : Bool := false

/-- The property-materialization loop (lines 688-715).  The absence test of
the source is `!meta.properties[propertyInfo]`: it indexes the map by the
*row object*, which JS coerces to the key `"[object Object]"`, so the test
succeeds whenever no property is literally named `"[object Object]"` — even
when `propertyName` itself is present. -/
def materializeProperties (ceProps : List (String × EntityInfo))
    (props : List (String × EntityMeta)) : List (String × EntityMeta) :=
  ceProps.foldl (fun ps q =>
    let pn := q.1
    let pi := q.2
    if (pi.abstract || pi.mixin) && (jsGet "[object Object]" ps).isNone then
      let pm : EntityMeta :=
        { type := "property", name := pn, abstract := pi.abstract,
          mixin := pi.mixin, access := pi.access,
          overriddenFrom := pi.overriddenFrom }
      let pm :=
        if objLenTruthy pi.appearsIn then
          { pm with appearsIn := some (.arr (pi.appearsIn.map (·.1))) }
        else pm
      let pm :=
        match pm.appearsIn with
        | some a => if !jsLenTruthy a then { pm with appearsIn := none } else pm
        | none => pm
      let pm := if pi.jsdoc.isSome then { pm with jsdoc := pi.jsdoc } else pm
      let pm :=
        if jsTruthy pi.overriddenFrom then { pm with overriddenFrom := pi.overriddenFrom }
        else pm
      let pm :=
        if !jsTruthy pm.overriddenFrom then { pm with overriddenFrom := none } else pm
      jsSet ps pn pm
    else ps) props

/-- The body of the first members pass (lines 722-730) for one member entry. -/
def updateExistingMember (ceMems : List (String × EntityInfo)) (n : String)
    (mm : EntityMeta) : EntityMeta :=
  if mm.type == "function" then
    match jsGet n ceMems with
    | some r =>
      mergeSignature r.jsdoc
        { mm with overriddenFrom := r.overriddenFrom
                  appearsIn := some (.arr (r.appearsIn.map (·.1))) }
    | none => mm
  else mm

/-- First members pass (lines 721-731): every existing `function` member whose
name has a working-table row receives the row's `overriddenFrom` and
`Object.keys(appearsIn)`, and the missing jsdoc signature is merged. -/
def updateExistingMembers (ceMems : List (String × EntityInfo))
    (members : List (String × EntityMeta)) : List (String × EntityMeta) :=
  members.map (fun p => (p.1, updateExistingMember ceMems p.1 p.2))

/-- The member entry materialized from one working-table row
(lines 739-759; the `appearsIn` branch at line 751 tests `.length` on a plain
object and is dead, so `appearsIn` is never copied). -/
def matValue (mn : String) (mi : EntityInfo) : EntityMeta :=
  let mm : EntityMeta :=
    { type := "function", name := mn, abstract := mi.abstract,
      mixin := mi.mixin, inherited := mi.inherited, access := mi.access,
      overriddenFrom := mi.overriddenFrom }
  let mm := if jsTruthy mi.property then { mm with property := mi.property } else mm
  let mm :=
    if objLenTruthy mi.appearsIn then
      { mm with appearsIn := some (.arr (mi.appearsIn.map (·.1))) }
    else mm
  let mm := if mi.jsdoc.isSome then { mm with jsdoc := mi.jsdoc } else mm
  if jsTruthy mi.overriddenFrom then { mm with overriddenFrom := mi.overriddenFrom }
  else mm

/-- One iteration of the second members pass (lines 732-763) over the working
table: upgrade a `variable` entry the table knows as a function, then
materialize an abstract/mixin/property-generated member that is absent. -/
def materializeMemberStep (st : List (String × EntityMeta) × Bool)
    (mn : String) (mi : EntityInfo) : List (String × EntityMeta) × Bool :=
  let mmPrev := jsGet mn st.1
  let ms :=
    match mmPrev with
    | some mm =>
      if mm.type == "variable" then jsSet st.1 mn { mm with type := "function" }
      else st.1
    | none => st.1
  if (mi.abstract || mi.mixin || jsTruthy mi.property) && mmPrev.isNone then
    (jsSet ms mn (matValue mn mi), st.2 || (matValue mn mi).abstract)
  else (ms, st.2)

/-- Second members pass (lines 732-764): upgrade `variable` entries that the
table knows as functions, and materialize table members that are abstract,
mixin-origin, or property-generated and absent from the meta; a materialized
abstract member raises the class's `abstract` flag. -/
def materializeMembers (ceMems : List (String × EntityInfo))
    (members : List (String × EntityMeta)) (abstractFlag : Bool) :
    List (String × EntityMeta) × Bool :=
  ceMems.foldl (fun st q => materializeMemberStep st q.1 q.2)
    (members, abstractFlag)

/-- The body of the final members cleanup (lines 766-772) for one entry. -/
def cleanupEntry (mm : EntityMeta) : EntityMeta :=
  let mm :=
    match mm.appearsIn with
    | some a => if !jsLenTruthy a then { mm with appearsIn := none } else mm
    | none => mm
  if !jsTruthy mm.overriddenFrom then { mm with overriddenFrom := none } else mm

/-- Final members cleanup (lines 765-773): drop empty `appearsIn` values (an
`appearsIn` without a truthy `length`) and falsy `overriddenFrom` keys. -/
def cleanupMembers (members : List (String × EntityMeta)) :
    List (String × EntityMeta) :=
  members.map (fun p => (p.1, cleanupEntry p.2))

/-- The meta produced for one class by `updateMetaData` (the fields that pass
touches): `properties`, `members` (deleted when empty, line 774) and the
`abstract` flag. -/
structure SavedMeta where
  properties : Option (List (String × EntityMeta)) := none
  members : Option (List (String × EntityMeta)) := none
  abstract : Bool := false
deriving DecidableEq, Repr

/-- `updateMetaData(classname, meta)` (lines 482-777): run the entity merge
and write the results back into the class's meta. -/
def updateMetaData (root : MetaTree) : SavedMeta :=
  let ce := analyseEntities root
  let d := root.data
  let props :=
    match d.properties with
    | none => none
    | some props =>
      some (materializeProperties ce.properties (applyRefine ce.properties props))
  let members0 := d.members
  let members1 := updateExistingMembers ce.members members0
  let st := materializeMembers ce.members members1 d.abstract
  let members2 := cleanupMembers st.1
  { properties := props
    members := if members2.isEmpty then none else some members2
    abstract := st.2 }

/-! ## Per-dependency flags and DB rows -/

/-- The flags of one `dependsOn` entry of a `ClassInfo` row. -/
structure DepFlags where
  load : Bool := false
  construct : Bool := false
deriving DecidableEq, Repr

/-- A `ClassInfo` row of the class DB (`db.classInfo[className]`); only the
fields the analyser itself reads.  `mtime` is the stat mtime in milliseconds
(`none` when the field is absent/falsy); `extendsName`, `implementNames`,
`includeNames` model the `extends`, `implement`, `include` keys. -/
structure DbClassInfo where
  mtime : Option Nat := none
  libraryName : String := ""
  extendsName : Option String := none
  implementNames : List String := []
  includeNames : List String := []
  dependsOn : List (String × DepFlags) := []
deriving DecidableEq, Repr

/-! ## Staleness decision (`getClassInfo` lines 895-992 and `scanFile`
lines 921-942).

The decision is modelled over a consistent snapshot of the filesystem: a stat
of a file succeeds exactly when the file exists (`fs.stat` after a successful
`fs.exists` is assumed not to race). -/

/-- The observable outcome of one `getClassInfo` call. -/
inductive ScanOutcome where
  /-- `fs.stat` of the source file failed: the error is passed to the callback
  and nothing else happens. -/
  | sourceErr
  /-- The cached `DbClassInfo` row was returned without recompiling
  (lines 929-934). -/
  | cached
  /-- `scanFile` fell through to the compile path: a fresh row is written and
  the class is (re)compiled. -/
  | recompile
deriving DecidableEq, Repr

/-- The freshness test inside `scanFile` (lines 922-935): the cached row is
returned only when the row exists, an `outputStat` was supplied, the row's
mtime is truthy and equals the source mtime exactly, and the output mtime is
at least the source mtime. -/
def scanFileDecision (srcMtime : Nat) (outputStat : Option Nat)
    (dbRow : Option DbClassInfo) : ScanOutcome :=
  match dbRow, outputStat with
  | some row, some outMtime =>
    match row.mtime with
    | some dbMtime =>
      if dbMtime == srcMtime then
        if outMtime ≥ srcMtime then .cached else .recompile
      else .recompile
    | none => .recompile
  | _, _ => .recompile

/-- The `fs` cascade of `getClassInfo` (lines 963-991): stat the source
(missing source is a terminal error), then `scanFile` without an `outputStat`
when the output file is missing or `forceScan` is set, or when the
`.meta.json` file is missing; otherwise `scanFile` with the output stat. -/
def getClassInfoDecision (forceScan : Bool) (srcMtime : Option Nat)
    (outputExists metaExists : Bool) (outputMtime : Nat)
    (dbRow : Option DbClassInfo) : ScanOutcome :=
  match srcMtime with
  | none => .sourceErr
  | some s =>
    if !outputExists || forceScan then
      scanFileDecision s none dbRow
    else if !metaExists then
      scanFileDecision s none dbRow
    else
      scanFileDecision s (some outputMtime) dbRow

/-! ## Indirect-load lift (`analyseClasses`, lines 381-448).

`getConstructDependencies` dereferences `info.dependsOn` without checking that
the row exists, so a `load` dependency on a class with no DB row makes the
lift throw; the lift is therefore partial (`Option`). -/

/-- `getConstructDependencies(className)` (lines 381-392): the names whose
`dependsOn` entry has the `construct` flag; `none` models the TypeError thrown
when the class has no DB row. -/
def getConstructDependencies (db : List (String × DbClassInfo))
    (className : String) : Option (List String) :=
  (jsGet className db).map (fun info =>
    (info.dependsOn.filter (fun p => p.2.construct)).map (·.1))

/-- `getIndirectLoadDependencies(className)` (lines 394-407): the concatenated
construct dependencies of every `load`-flagged dependency. -/
def getIndirectLoadDependencies (db : List (String × DbClassInfo))
    (className : String) : Option (List String) :=
  match jsGet className db with
  | none => some []
  | some info =>
    info.dependsOn.foldlM (fun acc p =>
      if p.2.load then (getConstructDependencies db p.1).map (acc ++ ·)
      else some acc) []

/-- The loop body of the lift (lines 443-446): ensure the `dependsOn` entry
exists (`info.dependsOn[depName] = \x7b\x7d` if missing) and set its `load`
flag. -/
def markLoad (dd : List (String × DepFlags)) (dep : String) :
    List (String × DepFlags) :=
  match jsGet dep dd with
  | some f => jsSet dd dep { f with load := true }
  | none => jsSet dd dep { load := true }

/-- The per-class body of the lift (lines 436-448): mark every indirect load
dependency with `load = true` on the class's own row, creating the
`dependsOn` entry if needed. -/
def liftStep (db : List (String × DbClassInfo)) (className : String) :
    Option (List (String × DbClassInfo)) :=
  match jsGet className db with
  | none => some db
  | some info =>
    (getIndirectLoadDependencies db className).map (fun deps =>
      jsSet db className { info with dependsOn := deps.foldl markLoad info.dependsOn })

/-- The whole indirect-load lift, run once over the drained worklist
(`classes.forEach(...)` in the `Done` callback). -/
def liftIndirectLoad (db : List (String × DbClassInfo))
    (classes : List String) : Option (List (String × DbClassInfo)) :=
  classes.foldlM liftStep db

/-! ## Descendants and the meta fixup pass
(`calcDescendants` lines 807-815, `analyzeMeta` lines 817-850, and the
`compiledClass` listener lines 345-370). -/

/-- `calcDescendants(classname, meta)`: the names in DB iteration order whose
row's `extends` equals the class name. -/
def calcDescendants (db : List (String × DbClassInfo)) (classname : String) :
    List String :=
  (db.filter (fun p => p.2.extendsName == some classname)).map (·.1)

/-- What the `compiledClass` listener records for one compiled class:
the class name, the previous row (if any) and the new row.  `hasMeta` is
whether `classFile.getOuterClassMeta()` returned a meta (a class that compiled
nothing yields `null`). -/
structure CompiledClass where
  name : String := ""
  oldInfo : Option DbClassInfo := none
  newInfo : DbClassInfo := {}
  hasMeta : Bool := true
deriving DecidableEq, Repr

/-- The names one row contributes to `metaFixupDescendants`:
its `extends`, `implement` and `include` entries. -/
def ancestorNames : Option DbClassInfo → List String
  | none => []
  | some i => (i.extendsName.toList) ++ i.implementNames ++ i.includeNames

/-- `metaFixupDescendants` accumulated by the `compiledClass` listener: a JS
object used as a set, in first-insertion order. -/
def metaFixupDescendants (compiled : List CompiledClass) : List String :=
  ((compiled.foldl (fun m c =>
      (ancestorNames c.oldInfo ++ ancestorNames (some c.newInfo)).foldl
        (fun m n => jsSet m n true) m) [])
    : List (String × Bool)).map (·.1)

/-- `compiledClasses` as a JS object keyed by class name (the listener stores
`compiledClasses[data.classFile.getClassName()] = data`). -/
def compiledMap (compiled : List CompiledClass) : List (String × CompiledClass) :=
  compiled.foldl (fun m c => jsSet m c.name c) []

/-- The `descendants` lists computed and staged for saving by `analyzeMeta`
(kept abstract of the other meta fields): every compiled class with a meta
gets `calcDescendants`, then every name in `metaFixupDescendants` that was not
compiled, has a DB row, and whose meta loads from disk gets `calcDescendants`
too. -/
def analyzeMetaDescendants (db : List (String × DbClassInfo))
    (compiled : List CompiledClass) (diskMetaLoads : String → Bool) :
    List (String × List String) :=
  let cm := compiledMap compiled
  let toSave := cm.foldl (fun ts p =>
    if p.2.hasMeta then jsSet ts p.1 (calcDescendants db p.1) else ts) []
  (metaFixupDescendants compiled).foldl (fun ts classname =>
    if (jsGet classname cm).isNone && (jsGet classname db).isSome
        && diskMetaLoads classname then
      jsSet ts classname (calcDescendants db classname)
    else ts) toSave

/-! ## The once-per-run meta write guard (`saveMetaData`, lines 781-789). -/

/-- The state of one `analyseClasses` run's meta writes: `metaWrittenLog` and
the sequence of files actually written. -/
structure MetaWriteState where
  metaWrittenLog : List (String × Bool) := []
  written : List String := []
deriving DecidableEq, Repr

/-- `saveMetaData(classname, meta)`: throw when `metaWrittenLog` already has
the class, otherwise record it and write the file. -/
def saveMetaData (st : MetaWriteState) (classname : String) :
    Except String MetaWriteState :=
  if (jsGet classname st.metaWrittenLog).getD false then
    .error (" *** ERRROR *** Writing " ++ classname ++ " more than once")
  else
    .ok { metaWrittenLog := jsSet st.metaWrittenLog classname true
          written := st.written ++ [classname] }

/-- The final save of `analyzeMeta` (line 849):
`Object.keys(toSave).map(classname => saveMetaData(classname, ...))` over a
fresh `metaWrittenLog`. -/
def analyzeMetaSave (toSaveKeys : List String) : Except String MetaWriteState :=
  toSaveKeys.foldlM saveMetaData {}

/-! ## Derived predicates used by the theorems -/

/-- The lift only ever grows the DB: rows survive, `construct` flags are kept
verbatim, and `load` flags are never cleared. -/
def RowsMono (db db' : List (String × DbClassInfo)) : Prop :=
  ∀ X info, jsGet X db = some info → ∃ info', jsGet X db' = some info' ∧
    ∀ Y f, jsGet Y info.dependsOn = some f →
      ∃ f', jsGet Y info'.dependsOn = some f' ∧
        f'.construct = f.construct ∧ (f.load = true → f'.load = true)

/-- The accessor method names the synthesis block generates for one property
(the call sequence of lines 612-643): `get`/`set`/`reset`, `is` when the
check type is `Boolean`, and the `Async` variants when the property is
declared async. -/
def accessorNamesGen (p : String) (pm : EntityMeta) : List String :=
  let up := p.capitalize
  let type := if jsTruthy pm.check then pm.check.getD "" else "any"
  ["get" ++ up] ++ (if type == "Boolean" then ["is" ++ up] else []) ++
    ["set" ++ up, "reset" ++ up] ++
    (if pm.async then
      ["get" ++ up ++ "Async"] ++
        (if type == "Boolean" then ["is" ++ up ++ "Async"] else []) ++
        ["set" ++ up ++ "Async"]
    else [])

/-- The arguments of one `addPropertyAccessor` call. -/
structure AccessorCall where
  methodName : String
  accessorType : String
  returnType : Option String := none
  valueType : Option String := none
  desc : String
deriving DecidableEq, Repr

/-- The `addPropertyAccessor` call sequence of the synthesis block for one
property, in source order (lines 612-643); `synthesizeForProperty` is proved
equal to folding `addPropertyAccessor` over this list. -/
def accessorCalls (p : String) (pm : EntityMeta) : List AccessorCall :=
  let up := p.capitalize
  let type := if jsTruthy pm.check then pm.check.getD "" else "any"
  let msg := getterDescText p
  { methodName := "get" ++ up, accessorType := "get", returnType := some type,
    desc := msg } ::
  ((if type == "Boolean" then
    [{ methodName := "is" ++ up, accessorType := "is", returnType := some type,
       desc := msg }]
  else []) ++
  [{ methodName := "set" ++ up, accessorType := "set", valueType := some type,
     desc := setterDescText p },
   { methodName := "reset" ++ up, accessorType := "reset",
     desc := resetDescText p }] ++
  (if pm.async then
    [{ methodName := "get" ++ up ++ "Async", accessorType := "getAsync",
       returnType := some "Promise", desc := asyncGetterDescText p }] ++
    (if type == "Boolean" then
      [{ methodName := "is" ++ up ++ "Async", accessorType := "isAsync",
         returnType := some "Promise", desc := asyncGetterDescText p }]
    else []) ++
    [{ methodName := "set" ++ up ++ "Async", accessorType := "setAsync",
       returnType := some "Promise", valueType := some type,
       desc := asyncSetterDescText p }]
  else []))

/-- Folding the synthesis calls of one property over a member table. -/
def foldCalls (first : Bool) (pm : EntityMeta) (t : List (String × EntityInfo))
    (calls : List AccessorCall) : List (String × EntityInfo) :=
  calls.foldl (fun tbl c => addPropertyAccessor first tbl pm c.methodName
    c.accessorType c.returnType c.valueType c.desc) t

/-- A working-table member row that accessor synthesis has produced or will
leave alone: concrete and carrying a truthy `property` marker. -/
def goodRow (N : String) (t : List (String × EntityInfo)) : Prop :=
  ∃ r, jsGet N t = some r ∧ jsTruthy r.property = true ∧ r.abstract = false

/-- A working-table member slot that accessor synthesis would still fill:
absent, or only an abstract (interface-inherited) row. -/
def pendingRow (N : String) (t : List (String × EntityInfo)) : Prop :=
  jsGet N t = none ∨ ∃ r, jsGet N t = some r ∧ r.abstract = true

/-- Membership of a member name in the saved meta produced by
`updateMetaData` (the `members` key is deleted when empty). -/
def savedContains (N : String) (sm : SavedMeta) : Prop :=
  N ∈ (sm.members.getD []).map Prod.fst

/-- Modelled from the spec (§6, canonical synthesized JSDoc descriptions):
the getter description with the property name rendered in backticks, exactly
as the spec prints it.  This is the spec-side text for the refinement
comparison of the claim; the source-side text is `getterDescText`. -/
def specGetterDescText (p : String) : String :=
  "Gets the (computed) value of the property `" ++ p ++
  "`.\n\nFor further details take a look at the property definition: \x7b@link #" ++ p ++ "\x7d."

/-- The per-table distinct-keys invariant of the working table. -/
def TableNodup (st : ClassEntities) : Prop :=
  (st.members.map Prod.fst).Nodup ∧ (st.properties.map Prod.fst).Nodup

/-! ## The recording order of the recursive walk -/

mutual

/-- The metas visited by `analyseClassEntities`, with their `first` flags, in
recording order: the meta itself, then its interfaces, mixins and super
class(es), each recursively (lines 488-559). -/
def preorder (first : Bool) : MetaTree → List (Bool × NodeData)
  | .node d ifs mxs sups =>
    (first, d) :: (preorderList ifs ++ (preorderList mxs ++ preorderList sups))

/-- Recording order over a list of resolved ancestor references. -/
def preorderList : List MetaTree → List (Bool × NodeData)
  | [] => []
  | m :: rest => preorder false m ++ preorderList rest

end

/-- The accessor method names synthesized while visiting one meta: the
generated names of every property of its `properties` section. -/
def nodeSynthNames (d : NodeData) : List String :=
  (d.properties.getD []).flatMap (fun q => accessorNamesGen q.1 q.2)

/-- The accessor method names synthesized over a whole visit sequence. -/
def listSynthNames (L : List (Bool × NodeData)) : List String :=
  L.flatMap (fun q => nodeSynthNames q.2)

/-- The effect of the entity loop over one section list on the single working
row of name `N` (`requireFn` is true for the `members` section, whose entries
are only processed when `type === "function"`). -/
def rowStepEntries (requireFn first : Bool) (d : NodeData) (N : String)
    (a : Option EntityInfo) (L : List (String × EntityMeta)) : Option EntityInfo :=
  L.foldl (fun a e =>
    if e.1 == N && (!requireFn || e.2.type == "function") then
      some (entityUpd first d N a e.2)
    else a) a

/-- The effect of recording one visited meta on the `members` row of `N`. -/
def memberRowStep (N : String) (a : Option EntityInfo) (q : Bool × NodeData) :
    Option EntityInfo :=
  rowStepEntries true q.1 q.2 N a q.2.members

/-- The effect of recording one visited meta on the `properties` row of `N`. -/
def propertyRowStep (N : String) (a : Option EntityInfo) (q : Bool × NodeData) :
    Option EntityInfo :=
  rowStepEntries false q.1 q.2 N a (q.2.properties.getD [])

/-- Whether a section list defines the entity name `N` (for the `members`
section only `function` entries count). -/
def definesIn (requireFn : Bool) (N : String) (L : List (String × EntityMeta)) : Bool :=
  L.any (fun e => e.1 == N && (!requireFn || e.2.type == "function"))

/-- The first visited meta that is not the class itself whose `members`
section defines the function member `N`, in recording order. -/
def firstMemberDefiner (N : String) (m : MetaTree) : Option String :=
  ((preorder true m).find? (fun q => !q.1 && definesIn true N q.2.members)).map
    (fun q => q.2.className)

/-- The first visited meta that is not the class itself whose `properties`
section defines the property `N`, in recording order. -/
def firstPropertyDefiner (N : String) (m : MetaTree) : Option String :=
  ((preorder true m).find?
      (fun q => !q.1 && definesIn false N (q.2.properties.getD []))).map
    (fun q => q.2.className)

/-- The `overriddenFrom` value of an optional working-table row. -/
def rowOvf (a : Option EntityInfo) : Option String :=
  a.bind (fun r => r.overriddenFrom)

/-- A two-level class hierarchy: class `C` with own function members `foo`
and `bar`, extending class `B`, which also defines `foo`. -/
def ovfDemoTree : MetaTree :=
  .node { className := "C", members := [("foo", {}), ("bar", {})] } [] []
    [.node { className := "B", members := [("foo", {})] } [] [] []]

/-- Class `C` declaring property `foo` and implementing interface `I`, which
declares the function member `getFoo`. -/
def ovfSynthClobberTree : MetaTree :=
  .node { className := "C", properties := some [("foo", { type := "property" })] }
    [.node { className := "I", type := "interface", members := [("getFoo", {})] }
      [] [] []]
    [] []

/-! ## Basic lemmas about the JS map model -/

theorem jsGet_jsSet_self (l : List (String × α)) (k : String) (v : α) :
    jsGet k (jsSet l k v) = some v := by
  induction l with
  | nil => simp [jsGet, jsSet]
  | cons p rest ih =>
    by_cases h : p.1 = k
    · simp [jsSet, jsGet, h]
    · simp only [jsSet, jsGet]
      rw [if_neg (by simpa using h), jsGet, if_neg h]
      exact ih

theorem jsGet_jsSet_ne (l : List (String × α)) (k k' : String) (v : α)
    (h : k' ≠ k) : jsGet k (jsSet l k' v) = jsGet k l := by
  induction l with
  | nil => simp [jsGet, jsSet, h]
  | cons p rest ih =>
    by_cases hp : p.1 = k'
    · simp only [jsSet, if_pos hp, jsGet, if_neg h, if_neg (hp ▸ h)]
    · simp only [jsSet, if_neg hp, jsGet]
      split
      · rfl
      · exact ih

theorem jsGet_mem (l : List (String × α)) (k : String) (v : α)
    (h : jsGet k l = some v) : (k, v) ∈ l := by
  induction l with
  | nil => cases h
  | cons p rest ih =>
    rw [jsGet] at h
    split at h
    next heq =>
      cases h
      have hpk : (k, p.2) = p := by rw [← heq]
      rw [hpk]
      exact List.mem_cons_self _ _
    next => exact .tail _ (ih h)

theorem jsGet_isSome_jsSet (l : List (String × α)) (k k' : String) (v : α)
    (h : (jsGet k l).isSome) : (jsGet k (jsSet l k' v)).isSome := by
  by_cases hk : k' = k
  · subst hk
    rw [jsGet_jsSet_self]
    rfl
  · rwa [jsGet_jsSet_ne _ _ _ _ hk]

/-- Keys of a `jsSet` result: the new key or an old key. -/
theorem jsSet_keys_subset (l : List (String × α)) (k : String) (v : α) :
    ∀ p ∈ jsSet l k v, p.1 = k ∨ p.1 ∈ l.map Prod.fst := by
  induction l with
  | nil =>
    intro p hp
    rw [jsSet, List.mem_singleton] at hp
    subst hp
    left; rfl
  | cons q rest ih =>
    intro p hp
    rw [jsSet] at hp
    split at hp
    · rw [List.mem_cons] at hp
      rcases hp with rfl | h
      · left; rfl
      · right
        rw [List.map_cons, List.mem_cons]
        right
        exact List.mem_map_of_mem _ h
    · rw [List.mem_cons] at hp
      rcases hp with rfl | h
      · right
        rw [List.map_cons, List.mem_cons]
        left; rfl
      · rcases ih p h with hx | hx
        · left; exact hx
        · right
          rw [List.map_cons, List.mem_cons]
          right; exact hx

/-! ## Theorems -/

/-- The freshness test of `scanFile` succeeds exactly when the row and the
output stat exist, the row's mtime equals the source mtime, and the output is
not older than the source. -/
theorem scanFileDecision_cached_iff (s : Nat) (o : Option Nat)
    (dbRow : Option DbClassInfo) :
    scanFileDecision s o dbRow = ScanOutcome.cached ↔
      ∃ row om, dbRow = some row ∧ o = some om ∧ row.mtime = some s ∧ s ≤ om := by
  rcases dbRow with _ | row
  · simp [scanFileDecision]
  · rcases o with _ | om
    · simp [scanFileDecision]
    · rcases hm : row.mtime with _ | m
      · simp [scanFileDecision, hm]
      · simp only [scanFileDecision, hm]
        constructor
        · intro h
          split at h
          next hms =>
            split at h
            next hle =>
              refine ⟨row, om, rfl, rfl, ?_, hle⟩
              rw [hm]
              simpa using hms
            next => cases h
          next => cases h
        · rintro ⟨row', om', h1, h2, h3, h4⟩
          cases h1
          cases h2
          rw [hm] at h3
          cases h3
          simp [h4]

/-- `scanFile` either returns the cached row or recompiles; it never reports
the source error itself. -/
theorem scanFileDecision_cached_or_recompile (s : Nat) (o : Option Nat)
    (dbRow : Option DbClassInfo) :
    scanFileDecision s o dbRow = ScanOutcome.cached ∨
      scanFileDecision s o dbRow = ScanOutcome.recompile := by
  rcases dbRow with _ | row
  · right; rfl
  · rcases o with _ | om
    · right; rfl
    · rcases hm : row.mtime with _ | m
      · right; simp [scanFileDecision, hm]
      · simp only [scanFileDecision, hm]
        split
        · split
          · left; rfl
          · right; rfl
        · right; rfl

/-- **C3** — `getClassInfo(className, forceScan, cb)` returns the cached
`ClassInfo` without recompiling iff `forceScan` is unset, a DB row exists
whose `mtime` equals the source mtime exactly, the compiled output file
exists, the `.meta.json` file exists, and the output mtime is at least the
source mtime; in every other case with a readable source the class is
(re)compiled, and a missing source file is a terminal error passed to the
callback. -/
theorem getClassInfo_cached_iff_fresh (forceScan : Bool) (srcMtime : Option Nat)
    (outputExists metaExists : Bool) (outputMtime : Nat)
    (dbRow : Option DbClassInfo) :
    (getClassInfoDecision forceScan srcMtime outputExists metaExists outputMtime dbRow =
        ScanOutcome.cached ↔
      forceScan = false ∧ outputExists = true ∧ metaExists = true ∧
        ∃ s row, srcMtime = some s ∧ dbRow = some row ∧ row.mtime = some s ∧
          s ≤ outputMtime) ∧
    (srcMtime = none →
      getClassInfoDecision forceScan srcMtime outputExists metaExists outputMtime dbRow =
        ScanOutcome.sourceErr) ∧
    (∀ s, srcMtime = some s →
      getClassInfoDecision forceScan srcMtime outputExists metaExists outputMtime dbRow =
          ScanOutcome.cached ∨
        getClassInfoDecision forceScan srcMtime outputExists metaExists outputMtime dbRow =
          ScanOutcome.recompile) := by
  refine ⟨?_, ?_, ?_⟩
  · obtain _ | s := srcMtime
    · simp [getClassInfoDecision]
    · simp only [getClassInfoDecision]
      by_cases h1 : (!outputExists || forceScan) = true
      · rw [if_pos h1, scanFileDecision_cached_iff]
        constructor
        · rintro ⟨row, om, -, hom, -⟩; cases hom
        · rintro ⟨hf, ho, -, -⟩
          rw [hf, ho] at h1
          cases h1
      · rw [if_neg h1]
        have ho : outputExists = true := by cases outputExists <;> simp_all
        have hf : forceScan = false := by cases forceScan <;> simp_all
        by_cases h2 : (!metaExists) = true
        · rw [if_pos h2, scanFileDecision_cached_iff]
          have hme : metaExists = false := by cases metaExists <;> simp_all
          constructor
          · rintro ⟨row, om, -, hom, -⟩; cases hom
          · rintro ⟨-, -, hmet, -⟩
            rw [hmet] at hme
            cases hme
        · rw [if_neg h2, scanFileDecision_cached_iff]
          have hme : metaExists = true := by cases metaExists <;> simp_all
          constructor
          · rintro ⟨row, om, hrow, hom, hms, hle⟩
            cases hom
            exact ⟨hf, ho, hme, s, row, rfl, hrow, hms, hle⟩
          · rintro ⟨-, -, -, s', row, hs, hrow, hms, hle⟩
            cases hs
            exact ⟨row, outputMtime, hrow, rfl, hms, hle⟩
  · rintro rfl; rfl
  · rintro s rfl
    simp only [getClassInfoDecision]
    by_cases h1 : (!outputExists || forceScan) = true
    · rw [if_pos h1]
      exact scanFileDecision_cached_or_recompile s none dbRow
    · rw [if_neg h1]
      by_cases h2 : (!metaExists) = true
      · rw [if_pos h2]
        exact scanFileDecision_cached_or_recompile s none dbRow
      · rw [if_neg h2]
        exact scanFileDecision_cached_or_recompile s (some outputMtime) dbRow

/-- **C3 witness** — a concrete fresh class: no `forceScan`, matching mtimes,
both output files present, output not older than the source. -/
theorem getClassInfo_cached_iff_fresh_witness :
    getClassInfoDecision false (some 5) true true 7 (some { mtime := some 5 }) =
      ScanOutcome.cached :=
  (getClassInfo_cached_iff_fresh false (some 5) true true 7
      (some { mtime := some 5 })).1.mpr
    ⟨rfl, rfl, rfl, 5, { mtime := some 5 }, rfl, rfl, rfl, by decide⟩

/-! ## Lemmas for the indirect-load lift -/

theorem RowsMono.refl (db : List (String × DbClassInfo)) : RowsMono db db :=
  fun _ info h => ⟨info, h, fun _ f hf => ⟨f, hf, rfl, id⟩⟩

theorem RowsMono.trans {db1 db2 db3 : List (String × DbClassInfo)}
    (h1 : RowsMono db1 db2) (h2 : RowsMono db2 db3) : RowsMono db1 db3 := by
  intro X info h
  obtain ⟨i2, hi2, hdep2⟩ := h1 X info h
  obtain ⟨i3, hi3, hdep3⟩ := h2 X i2 hi2
  refine ⟨i3, hi3, fun Y f hf => ?_⟩
  obtain ⟨f2, hf2, hc2, hl2⟩ := hdep2 Y f hf
  obtain ⟨f3, hf3, hc3, hl3⟩ := hdep3 Y f2 hf2
  exact ⟨f3, hf3, hc3.trans hc2, fun h => hl3 (hl2 h)⟩

theorem markLoad_get_ne (dd : List (String × DepFlags)) (dep Y : String)
    (h : dep ≠ Y) : jsGet Y (markLoad dd dep) = jsGet Y dd := by
  unfold markLoad
  split <;> exact jsGet_jsSet_ne _ _ _ _ h

theorem markLoad_get_self (dd : List (String × DepFlags)) (dep : String) :
    ∃ f', jsGet dep (markLoad dd dep) = some f' ∧ f'.load = true ∧
      ∀ f, jsGet dep dd = some f → f'.construct = f.construct := by
  unfold markLoad
  split
  next f hf =>
    refine ⟨{ f with load := true }, jsGet_jsSet_self .., rfl, fun g hg => ?_⟩
    rw [hf] at hg
    cases hg
    rfl
  next hf =>
    refine ⟨{ load := true }, jsGet_jsSet_self .., rfl, fun g hg => ?_⟩
    rw [hf] at hg
    cases hg

theorem foldl_markLoad_mono (deps : List String) :
    ∀ (dd : List (String × DepFlags)) (Y : String) (f : DepFlags),
      jsGet Y dd = some f →
      ∃ f', jsGet Y (deps.foldl markLoad dd) = some f' ∧
        f'.construct = f.construct ∧ (f.load = true → f'.load = true) := by
  induction deps with
  | nil => exact fun dd Y f h => ⟨f, h, rfl, id⟩
  | cons dep rest ih =>
    intro dd Y f h
    rw [List.foldl_cons]
    by_cases hdy : dep = Y
    · subst hdy
      obtain ⟨f1, hf1, hl1, hc1⟩ := markLoad_get_self dd dep
      obtain ⟨f', hf', hc', hl'⟩ := ih _ dep f1 hf1
      exact ⟨f', hf', hc'.trans (hc1 f h), fun _ => hl' hl1⟩
    · obtain ⟨f', hf', hc', hl'⟩ := ih _ Y f (by rwa [markLoad_get_ne _ _ _ hdy])
      exact ⟨f', hf', hc', hl'⟩

theorem foldl_markLoad_sets (deps : List String) :
    ∀ (dd : List (String × DepFlags)) (E : String), E ∈ deps →
      ∃ f', jsGet E (deps.foldl markLoad dd) = some f' ∧ f'.load = true := by
  induction deps with
  | nil => intro _ _ h; cases h
  | cons dep rest ih =>
    intro dd E hE
    rw [List.foldl_cons]
    rcases List.mem_cons.mp hE with rfl | hE
    · obtain ⟨f1, hf1, hl1, -⟩ := markLoad_get_self dd E
      obtain ⟨f', hf', -, hl'⟩ := foldl_markLoad_mono rest _ E f1 hf1
      exact ⟨f', hf', hl' hl1⟩
    · exact ih _ E hE

theorem liftStep_mono (db : List (String × DbClassInfo)) (c : String)
    (db2 : List (String × DbClassInfo)) (h : liftStep db c = some db2) :
    RowsMono db db2 := by
  unfold liftStep at h
  split at h
  · cases h
    exact RowsMono.refl _
  next info hinfo =>
    rw [Option.map_eq_some'] at h
    obtain ⟨deps, -, rfl⟩ := h
    intro X infoX hX
    by_cases hxc : c = X
    · subst hxc
      rw [hinfo] at hX
      cases hX
      refine ⟨_, jsGet_jsSet_self .., fun Y f hf => ?_⟩
      exact foldl_markLoad_mono deps _ Y f hf
    · exact ⟨infoX, by rwa [jsGet_jsSet_ne _ _ _ _ hxc],
        fun Y f hf => ⟨f, hf, rfl, id⟩⟩

theorem liftAll_mono (classes : List String) :
    ∀ (db db' : List (String × DbClassInfo)),
      liftIndirectLoad db classes = some db' → RowsMono db db' := by
  induction classes with
  | nil =>
    intro db db' h
    cases h
    exact RowsMono.refl _
  | cons c rest ih =>
    intro db db' h
    rw [liftIndirectLoad, List.foldlM_cons] at h
    obtain ⟨db1, h1, h2⟩ := Option.bind_eq_some.mp h
    exact (liftStep_mono db c db1 h1).trans (ih db1 db' h2)

/-- If the inner `foldlM` of `getIndirectLoadDependencies` succeeds, the
accumulator embeds into the result, and so do the construct dependencies of
every `load`-flagged entry. -/
theorem indirect_fold_mem (db : List (String × DbClassInfo)) :
    ∀ (l : List (String × DepFlags)) (acc deps : List String),
      l.foldlM (fun acc p =>
        if p.2.load then (getConstructDependencies db p.1).map (acc ++ ·)
        else some acc) acc = some deps →
      acc ⊆ deps ∧ ∀ p ∈ l, p.2.load = true →
        ∀ cd, getConstructDependencies db p.1 = some cd → cd ⊆ deps := by
  intro l
  induction l with
  | nil =>
    intro acc deps h
    cases h
    exact ⟨fun _ hx => hx, fun p hp => (by cases hp)⟩
  | cons p rest ih =>
    intro acc deps h
    rw [List.foldlM_cons] at h
    obtain ⟨acc1, hstep, hrest⟩ := Option.bind_eq_some.mp h
    obtain ⟨hsub, hall⟩ := ih acc1 deps hrest
    by_cases hl : p.2.load = true
    · rw [if_pos hl, Option.map_eq_some'] at hstep
      obtain ⟨cd0, hcd0, rfl⟩ := hstep
      refine ⟨fun x hx => hsub (List.mem_append_left _ hx), ?_⟩
      rintro q hq hql cd hcd
      rcases List.mem_cons.mp hq with rfl | hq
      · rw [hcd0] at hcd
        cases hcd
        exact fun x hx => hsub (List.mem_append_right _ hx)
      · exact hall q hq hql cd hcd
    · rw [if_neg hl] at hstep
      cases hstep
      refine ⟨hsub, ?_⟩
      rintro q hq hql cd hcd
      rcases List.mem_cons.mp hq with rfl | hq
      · exact absurd hql hl
      · exact hall q hq hql cd hcd

/-- One lift step for class `C` adds `load` on `C`'s row for every construct
dependency of every `load` dependency of `C`. -/
theorem liftStep_adds (db : List (String × DbClassInfo)) (C D E : String)
    (infoC infoD : DbClassInfo) (fD fE : DepFlags)
    (hrowC : jsGet C db = some infoC)
    (hD : jsGet D infoC.dependsOn = some fD) (hDload : fD.load = true)
    (hrowD : jsGet D db = some infoD)
    (hE : jsGet E infoD.dependsOn = some fE) (hEcon : fE.construct = true)
    (db2 : List (String × DbClassInfo)) (h : liftStep db C = some db2) :
    ∃ info f, jsGet C db2 = some info ∧ jsGet E info.dependsOn = some f ∧
      f.load = true := by
  unfold liftStep at h
  rw [hrowC] at h
  rw [Option.map_eq_some'] at h
  obtain ⟨deps, hdeps, rfl⟩ := h
  have hEdeps : E ∈ deps := by
    rw [getIndirectLoadDependencies, hrowC] at hdeps
    obtain ⟨-, hall⟩ := indirect_fold_mem db infoC.dependsOn [] deps hdeps
    have hcd : getConstructDependencies db D =
        some ((infoD.dependsOn.filter (fun p => p.2.construct)).map (·.1)) := by
      rw [getConstructDependencies, hrowD]
      rfl
    refine hall (D, fD) (jsGet_mem _ _ _ hD) hDload _ hcd ?_
    refine List.mem_map.mpr ⟨(E, fE), ?_, rfl⟩
    rw [List.mem_filter]
    exact ⟨jsGet_mem _ _ _ hE, hEcon⟩
  obtain ⟨f', hf', hl'⟩ := foldl_markLoad_sets deps infoC.dependsOn E hEdeps
  exact ⟨_, f', jsGet_jsSet_self .., hf', hl'⟩

/-- **C5** — after the worklist drains and the indirect-load lift completes,
for every class `C` in the closure, every `D` with `C.dependsOn[D].load`, and
every `E` with `D.dependsOn[E].construct` (flags as of the drained worklist),
the lifted DB has `C.dependsOn[E].load == true`. -/
theorem indirect_load_lift (db db' : List (String × DbClassInfo))
    (classes : List String) (C D E : String)
    (infoC infoD : DbClassInfo) (fD fE : DepFlags)
    (hC : C ∈ classes)
    (hrowC : jsGet C db = some infoC)
    (hD : jsGet D infoC.dependsOn = some fD) (hDload : fD.load = true)
    (hrowD : jsGet D db = some infoD)
    (hE : jsGet E infoD.dependsOn = some fE) (hEcon : fE.construct = true)
    (hlift : liftIndirectLoad db classes = some db') :
    ∃ info f, jsGet C db' = some info ∧ jsGet E info.dependsOn = some f ∧
      f.load = true := by
  obtain ⟨l1, l2, rfl⟩ := List.append_of_mem hC
  rw [liftIndirectLoad, List.foldlM_append] at hlift
  obtain ⟨db1, h1, h2⟩ := Option.bind_eq_some.mp hlift
  rw [List.foldlM_cons] at h2
  obtain ⟨db2, hstep, h3⟩ := Option.bind_eq_some.mp h2
  have hm1 : RowsMono db db1 := liftAll_mono l1 db db1 h1
  obtain ⟨infoC1, hrowC1, hdepC1⟩ := hm1 C infoC hrowC
  obtain ⟨fD1, hD1, -, hl1⟩ := hdepC1 D fD hD
  obtain ⟨infoD1, hrowD1, hdepD1⟩ := hm1 D infoD hrowD
  obtain ⟨fE1, hE1, hc1, -⟩ := hdepD1 E fE hE
  obtain ⟨info2, f2, hrow2, hE2, hload2⟩ :=
    liftStep_adds db1 C D E infoC1 infoD1 fD1 fE1 hrowC1 hD1 (hl1 hDload)
      hrowD1 hE1 (hc1.trans hEcon) db2 hstep
  have hm2 : RowsMono db2 db' := liftAll_mono l2 db2 db' h3
  obtain ⟨info', hrow', hdep'⟩ := hm2 C info2 hrow2
  obtain ⟨f', hf', -, hl'⟩ := hdep' E f2 hE2
  exact ⟨info', f', hrow', hf', hl' hload2⟩

/-- **C5 witness** — scenario S5: seed `\x7bF\x7d`; `F` load-depends on `G`,
`G` construct-depends on `H`; after the lift `F.dependsOn.H.load == true`. -/
theorem indirect_load_lift_witness :
    ∃ info f,
      jsGet "F" ((liftIndirectLoad
        [("F", { dependsOn := [("G", { load := true })] }),
         ("G", { dependsOn := [("H", { construct := true })] }),
         ("H", {})] ["F", "G", "H"]).getD []) = some info ∧
      jsGet "H" info.dependsOn = some f ∧ f.load = true := by
  have h := indirect_load_lift
    [("F", { dependsOn := [("G", { load := true })] }),
     ("G", { dependsOn := [("H", { construct := true })] }),
     ("H", {})]
    ((liftIndirectLoad
        [("F", { dependsOn := [("G", { load := true })] }),
         ("G", { dependsOn := [("H", { construct := true })] }),
         ("H", {})] ["F", "G", "H"]).getD [])
    ["F", "G", "H"] "F" "G" "H"
    { dependsOn := [("G", { load := true })] }
    { dependsOn := [("H", { construct := true })] }
    { load := true } { construct := true }
    (by decide) (by decide) (by decide) rfl (by decide) (by decide) rfl
    (by decide)
  exact h

/-! ## Lemmas for the once-per-run write guard -/

/-- `jsSet` preserves key distinctness. -/
theorem nodupKeys_jsSet (l : List (String × α)) (k : String) (v : α)
    (h : (l.map Prod.fst).Nodup) : ((jsSet l k v).map Prod.fst).Nodup := by
  induction l with
  | nil => simp [jsSet]
  | cons q rest ih =>
    rw [List.map_cons, List.nodup_cons] at h
    rw [jsSet]
    split
    next heq =>
      rw [List.map_cons, List.nodup_cons]
      exact ⟨by rw [← heq]; exact h.1, h.2⟩
    next hne =>
      rw [List.map_cons, List.nodup_cons]
      refine ⟨?_, ih h.2⟩
      intro hmem
      rw [List.mem_map] at hmem
      obtain ⟨p, hp, hpk⟩ := hmem
      rcases jsSet_keys_subset rest k v p hp with h1 | h1
      · exact hne (by rw [← hpk, h1])
      · exact h.1 (hpk ▸ h1)

/-- Any fold whose steps are either the identity or a `jsSet` keeps key
distinctness. -/
theorem nodupKeys_condSet_fold {β : Type}
    (step : List (String × α) → β → List (String × α))
    (hstep : ∀ m x, step m x = m ∨ ∃ k v, step m x = jsSet m k v) :
    ∀ (l : List β) (init : List (String × α)),
      (init.map Prod.fst).Nodup → ((l.foldl step init).map Prod.fst).Nodup := by
  intro l
  induction l with
  | nil => exact fun init h => h
  | cons x rest ih =>
    intro init h
    rw [List.foldl_cons]
    refine ih (step init x) ?_
    rcases hstep init x with h1 | ⟨k, v, h1⟩
    · rw [h1]; exact h
    · rw [h1]; exact nodupKeys_jsSet _ _ _ h

/-- The staged `toSave` map of `analyzeMeta` has pairwise-distinct class
names: it is a JS object built key by key. -/
theorem analyzeMetaDescendants_nodup (db : List (String × DbClassInfo))
    (compiled : List CompiledClass) (diskMetaLoads : String → Bool) :
    ((analyzeMetaDescendants db compiled diskMetaLoads).map Prod.fst).Nodup := by
  unfold analyzeMetaDescendants
  refine nodupKeys_condSet_fold _ ?_ _ _ ?_
  · intro m x
    split
    · right; exact ⟨_, _, rfl⟩
    · left; rfl
  · refine nodupKeys_condSet_fold _ ?_ _ _ (by simp)
    intro m x
    split
    · right; exact ⟨_, _, rfl⟩
    · left; rfl

/-- Folding `saveMetaData` over distinct class names none of which has been
logged yet succeeds and writes each exactly once, in order. -/
theorem saveMeta_fold (keys : List String) :
    ∀ st0 : MetaWriteState, keys.Nodup →
      (∀ c ∈ keys, (jsGet c st0.metaWrittenLog).getD false = false) →
      ∃ st, keys.foldlM saveMetaData st0 = .ok st ∧
        st.written = st0.written ++ keys := by
  induction keys with
  | nil =>
    intro st0 _ _
    exact ⟨st0, rfl, by simp⟩
  | cons c rest ih =>
    intro st0 hnd hfresh
    rw [List.nodup_cons] at hnd
    have hc : (jsGet c st0.metaWrittenLog).getD false = false :=
      hfresh c (List.mem_cons_self _ _)
    have hstep : saveMetaData st0 c =
        .ok { metaWrittenLog := jsSet st0.metaWrittenLog c true
              written := st0.written ++ [c] } := by
      rw [saveMetaData, hc]
      rfl
    rw [List.foldlM_cons, hstep]
    have hfresh' : ∀ x ∈ rest,
        (jsGet x (jsSet st0.metaWrittenLog c true)).getD false = false := by
      intro x hx
      rw [jsGet_jsSet_ne _ _ _ _ (fun h => hnd.1 (by rw [h]; exact hx))]
      exact hfresh x (List.mem_cons_of_mem _ hx)
    obtain ⟨st, hst, hw⟩ := ih
      { metaWrittenLog := jsSet st0.metaWrittenLog c true
        written := st0.written ++ [c] } hnd.2 hfresh'
    refine ⟨st, hst, ?_⟩
    rw [hw]
    simp

/-- **C6** — within one `analyseClasses` run the meta file of a class is
written at most once: a second `saveMetaData` invocation for an
already-logged class throws instead of writing, and the save of the staged
`toSave` map (one JS object key per class, fed by the merge pass and the
descendant-fixup pass, which skips compiled classes) always succeeds, writing
every staged class exactly once. -/
theorem saveMeta_once_per_run (st : MetaWriteState) (c : String)
    (db : List (String × DbClassInfo)) (compiled : List CompiledClass)
    (diskMetaLoads : String → Bool)
    (hlogged : (jsGet c st.metaWrittenLog).getD false = true) :
    (∃ e, saveMetaData st c = .error e) ∧
    (∃ st', analyzeMetaSave
        ((analyzeMetaDescendants db compiled diskMetaLoads).map Prod.fst) =
          .ok st' ∧
      st'.written =
        (analyzeMetaDescendants db compiled diskMetaLoads).map Prod.fst) := by
  constructor
  · refine ⟨" *** ERRROR *** Writing " ++ c ++ " more than once", ?_⟩
    rw [saveMetaData, hlogged]
    rfl
  · obtain ⟨st', hst', hw⟩ := saveMeta_fold
      ((analyzeMetaDescendants db compiled diskMetaLoads).map Prod.fst) {}
      (analyzeMetaDescendants_nodup db compiled diskMetaLoads)
      (fun _ _ => rfl)
    exact ⟨st', hst', by simpa using hw⟩

/-- **C6 witness** — a concrete already-written class throws, and a concrete
run (compiled `B extends A`, fixing up `A`) saves each class once. -/
theorem saveMeta_once_per_run_witness :
    (∃ e, saveMetaData { metaWrittenLog := [("B", true)] } "B" = .error e) ∧
    (∃ st', analyzeMetaSave
        ((analyzeMetaDescendants [("A", {}), ("B", { extendsName := some "A" })]
          [{ name := "B", oldInfo := none,
             newInfo := { extendsName := some "A" } }]
          (fun _ => true)).map Prod.fst) = .ok st' ∧
      st'.written =
        (analyzeMetaDescendants [("A", {}), ("B", { extendsName := some "A" })]
          [{ name := "B", oldInfo := none,
             newInfo := { extendsName := some "A" } }]
          (fun _ => true)).map Prod.fst) :=
  saveMeta_once_per_run { metaWrittenLog := [("B", true)] } "B"
    [("A", {}), ("B", { extendsName := some "A" })]
    [{ name := "B", oldInfo := none, newInfo := { extendsName := some "A" } }]
    (fun _ => true) (by decide)

/-! ## Lemmas for the descendant fixup -/

/-- The first `analyzeMeta` staging fold only writes keys it is iterating
over, so an absent key is untouched. -/
theorem phase1_frame (db : List (String × DbClassInfo)) (name : String) :
    ∀ (l : List (String × CompiledClass)) (ts : List (String × List String)),
      name ∉ l.map Prod.fst →
      jsGet name (l.foldl (fun ts p =>
        if p.2.hasMeta then jsSet ts p.1 (calcDescendants db p.1) else ts) ts) =
        jsGet name ts := by
  intro l
  induction l with
  | nil => intro ts _; rfl
  | cons q rest ih =>
    intro ts hnm
    rw [List.map_cons] at hnm
    rw [List.foldl_cons]
    have hq : q.1 ≠ name := fun h => hnm (by rw [h]; exact List.mem_cons_self _ _)
    rw [ih _ (fun h => hnm (List.mem_cons_of_mem _ h))]
    split
    · exact jsGet_jsSet_ne _ _ _ _ hq
    · rfl

/-- After the first staging fold, every iterated class with a meta maps to its
freshly computed descendants. -/
theorem phase1_get (db : List (String × DbClassInfo)) :
    ∀ (l : List (String × CompiledClass)) (ts : List (String × List String))
      (name : String) (entry : CompiledClass),
      (l.map Prod.fst).Nodup →
      jsGet name l = some entry → entry.hasMeta = true →
      jsGet name (l.foldl (fun ts p =>
        if p.2.hasMeta then jsSet ts p.1 (calcDescendants db p.1) else ts) ts) =
        some (calcDescendants db name) := by
  intro l
  induction l with
  | nil => intro ts name entry _ h; cases h
  | cons q rest ih =>
    intro ts name entry hnd hget hm
    rw [List.map_cons, List.nodup_cons] at hnd
    rw [jsGet] at hget
    rw [List.foldl_cons]
    split at hget
    next heq =>
      cases hget
      rw [phase1_frame db name rest _ (heq ▸ hnd.1), if_pos hm, ← heq]
      exact jsGet_jsSet_self ..
    next hne =>
      exact ih _ name entry hnd.2 hget hm

/-- The fixup fold never touches the key of a compiled class. -/
theorem phase2_frame_compiled (db : List (String × DbClassInfo))
    (cm : List (String × CompiledClass)) (diskMetaLoads : String → Bool)
    (name : String) (hname : (jsGet name cm).isSome) :
    ∀ (l : List String) (ts : List (String × List String)),
      jsGet name (l.foldl (fun ts x =>
        if (jsGet x cm).isNone && (jsGet x db).isSome && diskMetaLoads x then
          jsSet ts x (calcDescendants db x)
        else ts) ts) = jsGet name ts := by
  intro l
  induction l with
  | nil => intro ts; rfl
  | cons x rest ih =>
    intro ts
    rw [List.foldl_cons, ih]
    split
    next hcond =>
      refine jsGet_jsSet_ne _ _ _ _ (fun h => ?_)
      subst h
      rw [Option.isSome_iff_ne_none] at hname
      simp only [Bool.and_eq_true, Option.isNone_iff_eq_none] at hcond
      exact hname hcond.1.1
    next => rfl

/-- The fixup fold never writes a key that is not in its iteration list. -/
theorem phase2_frame_absent (db : List (String × DbClassInfo))
    (cm : List (String × CompiledClass)) (diskMetaLoads : String → Bool)
    (name : String) :
    ∀ (l : List String) (ts : List (String × List String)), name ∉ l →
      jsGet name (l.foldl (fun ts x =>
        if (jsGet x cm).isNone && (jsGet x db).isSome && diskMetaLoads x then
          jsSet ts x (calcDescendants db x)
        else ts) ts) = jsGet name ts := by
  intro l
  induction l with
  | nil => intro ts _; rfl
  | cons x rest ih =>
    intro ts hnm
    rw [List.foldl_cons, ih _ (fun h => hnm (List.mem_cons_of_mem _ h))]
    split
    · exact jsGet_jsSet_ne _ _ _ _
        (fun h => hnm (h ▸ List.mem_cons_self _ _))
    · rfl

/-- After the fixup fold, every iterated uncompiled name with a DB row and a
loadable meta maps to its freshly computed descendants. -/
theorem phase2_get (db : List (String × DbClassInfo))
    (cm : List (String × CompiledClass)) (diskMetaLoads : String → Bool) :
    ∀ (l : List String) (ts : List (String × List String)) (x : String),
      l.Nodup → x ∈ l →
      (jsGet x cm).isNone → (jsGet x db).isSome → diskMetaLoads x = true →
      jsGet x (l.foldl (fun ts x =>
        if (jsGet x cm).isNone && (jsGet x db).isSome && diskMetaLoads x then
          jsSet ts x (calcDescendants db x)
        else ts) ts) = some (calcDescendants db x) := by
  intro l
  induction l with
  | nil => intro ts x _ h; cases h
  | cons y rest ih =>
    intro ts x hnd hx hnc hdb hload
    rw [List.nodup_cons] at hnd
    rw [List.foldl_cons]
    rcases List.mem_cons.mp hx with rfl | hx
    · rw [phase2_frame_absent db cm diskMetaLoads x rest _ hnd.1]
      rw [if_pos (by simp [hnc, hdb, hload])]
      exact jsGet_jsSet_self ..
    · exact ih _ x hnd.2 hx hnc hdb hload

/-- The `compiledClasses` JS object has pairwise-distinct keys. -/
theorem compiledMap_nodup (compiled : List CompiledClass) :
    ((compiledMap compiled).map Prod.fst).Nodup := by
  unfold compiledMap
  induction compiled using List.reverseRecOn with
  | nil => simp
  | append_singleton rest c ih =>
    rw [List.foldl_append, List.foldl_cons, List.foldl_nil]
    exact nodupKeys_jsSet _ _ _ ih

/-- The `metaFixupDescendants` key list has pairwise-distinct entries. -/
theorem metaFixupDescendants_nodup (compiled : List CompiledClass) :
    (metaFixupDescendants compiled).Nodup := by
  unfold metaFixupDescendants
  suffices h : ∀ (l : List CompiledClass) (init : List (String × Bool)),
      (init.map Prod.fst).Nodup →
      ((l.foldl (fun m c =>
        (ancestorNames c.oldInfo ++ ancestorNames (some c.newInfo)).foldl
          (fun m n => jsSet m n true) m) init).map Prod.fst).Nodup by
    exact h compiled [] (by simp)
  intro l
  induction l with
  | nil => exact fun init h => h
  | cons c rest ih =>
    intro init h
    rw [List.foldl_cons]
    refine ih _ ?_
    refine nodupKeys_condSet_fold _ ?_ _ _ h
    intro m x
    right
    exact ⟨x, true, rfl⟩

/-- A name is a computed descendant of `X` exactly when some DB row for that
name extends `X`. -/
theorem calcDescendants_mem (db : List (String × DbClassInfo)) (X Y : String) :
    Y ∈ calcDescendants db X ↔ ∃ r, (Y, r) ∈ db ∧ r.extendsName = some X := by
  unfold calcDescendants
  rw [List.mem_map]
  constructor
  · rintro ⟨p, hp, rfl⟩
    rw [List.mem_filter] at hp
    refine ⟨p.2, hp.1, by simpa using hp.2⟩
  · rintro ⟨r, hr, hext⟩
    exact ⟨(Y, r), List.mem_filter.mpr ⟨hr, by simpa using hext⟩, rfl⟩

/-- **C4** — after a run, every freshly compiled class with a meta, and every
class named as `extends`/`implement`/`include` in the old or new `ClassInfo`
of some compiled class that was not itself recompiled, has a DB row, and
whose meta loads, is staged for saving with `descendants` equal to exactly the
class names whose DB row extends it. -/
theorem descendants_consistency (db : List (String × DbClassInfo))
    (compiled : List CompiledClass) (diskMetaLoads : String → Bool) :
    (∀ name entry, jsGet name (compiledMap compiled) = some entry →
      entry.hasMeta = true →
      jsGet name (analyzeMetaDescendants db compiled diskMetaLoads) =
        some (calcDescendants db name)) ∧
    (∀ x, x ∈ metaFixupDescendants compiled →
      jsGet x (compiledMap compiled) = none →
      (jsGet x db).isSome → diskMetaLoads x = true →
      jsGet x (analyzeMetaDescendants db compiled diskMetaLoads) =
        some (calcDescendants db x)) ∧
    (∀ X Y, Y ∈ calcDescendants db X ↔
      ∃ r, (Y, r) ∈ db ∧ r.extendsName = some X) := by
  refine ⟨?_, ?_, fun X Y => calcDescendants_mem db X Y⟩
  · intro name entry hget hm
    unfold analyzeMetaDescendants
    rw [phase2_frame_compiled db (compiledMap compiled) diskMetaLoads name
      (by rw [hget]; rfl)]
    exact phase1_get db (compiledMap compiled) [] name entry
      (compiledMap_nodup compiled) hget hm
  · intro x hx hnc hdb hload
    unfold analyzeMetaDescendants
    exact phase2_get db (compiledMap compiled) diskMetaLoads
      (metaFixupDescendants compiled) _ x
      (metaFixupDescendants_nodup compiled) hx (by rw [hnc]; rfl) hdb hload

/-- **C4 witness** — `B extends A`, only `B` compiled: `B` is staged with
descendants `[]` and the fixed-up `A` with descendants `["B"]`. -/
theorem descendants_consistency_witness :
    jsGet "B" (analyzeMetaDescendants
        [("A", {}), ("B", { extendsName := some "A" })]
        [{ name := "B", oldInfo := none,
           newInfo := { extendsName := some "A" } }]
        (fun _ => true)) = some (calcDescendants
          [("A", {}), ("B", { extendsName := some "A" })] "B") ∧
    jsGet "A" (analyzeMetaDescendants
        [("A", {}), ("B", { extendsName := some "A" })]
        [{ name := "B", oldInfo := none,
           newInfo := { extendsName := some "A" } }]
        (fun _ => true)) = some (calcDescendants
          [("A", {}), ("B", { extendsName := some "A" })] "A") := by
  have h := descendants_consistency
    [("A", {}), ("B", { extendsName := some "A" })]
    [{ name := "B", oldInfo := none, newInfo := { extendsName := some "A" } }]
    (fun _ => true)
  refine ⟨h.1 "B" { name := "B", oldInfo := none, newInfo := { extendsName := some "A" } } (by decide) rfl, ?_⟩
  exact h.2.1 "A" (by decide) (by decide) (by decide) rfl

/-! ## Lemmas about `addPropertyAccessor` -/

/-- A concrete (non-abstract) row is left exactly as it is by any
`addPropertyAccessor` call, whatever name that call targets. -/
theorem apa_preserves_concrete (first : Bool) (t : List (String × EntityInfo))
    (pm : EntityMeta) (M kind : String) (rt vt : Option String) (desc : String)
    (N : String) (r : EntityInfo) (h : jsGet N t = some r)
    (hr : r.abstract = false) :
    jsGet N (addPropertyAccessor first t pm M kind rt vt desc) = some r := by
  simp only [addPropertyAccessor]
  by_cases hcond : ((jsGet M t).isNone ||
      (Option.map (fun x => x.abstract) (jsGet M t)).getD false) = true
  · rw [if_pos hcond]
    by_cases hMN : M = N
    · subst hMN
      rw [h] at hcond
      simp [hr] at hcond
    · rw [jsGet_jsSet_ne _ _ _ _ hMN]
      exact h
  · rw [if_neg hcond]
    exact h

/-- When the targeted slot is absent or abstract, `addPropertyAccessor`
replaces it with the synthesized entry. -/
theorem apa_replaces (first : Bool) (t : List (String × EntityInfo))
    (pm : EntityMeta) (M kind : String) (rt vt : Option String) (desc : String)
    (h : pendingRow M t) :
    jsGet M (addPropertyAccessor first t pm M kind rt vt desc) = some
      { appearsIn := match jsGet M t with | some e => e.appearsIn | none => []
        overriddenFrom := jsOrNull ((jsGet M t).bind (fun e => jsGet "0" e.appearsIn))
        jsdoc := some
          { description := [{ name := "@description", body := desc }]
            returns :=
              if jsTruthy rt then
                [{ name := "@return", type := rt.getD ""
                   desc := "Returns the value for " ++ pm.name }]
              else []
            params :=
              if jsTruthy vt then
                [{ name := "@param", type := vt.getD "", paramName := "value"
                   desc := "Value for " ++ pm.name }]
              else [] }
        property := some kind
        inherited := !first
        mixin := pm.mixin
        access := "public" } := by
  have hcond : ((jsGet M t).isNone ||
      (Option.map (fun x => x.abstract) (jsGet M t)).getD false) = true := by
    rcases h with h | ⟨r, h, hr⟩
    · rw [h]; rfl
    · rw [h]
      simp [hr]
  simp only [addPropertyAccessor]
  rw [if_pos hcond]
  exact jsGet_jsSet_self ..

/-- A good row (concrete, with a truthy `property` marker) survives any
`addPropertyAccessor` call unchanged in those respects. -/
theorem apa_pres_good (first : Bool) (t : List (String × EntityInfo))
    (pm : EntityMeta) (M kind : String) (rt vt : Option String) (desc : String)
    (N : String) (h : goodRow N t) :
    goodRow N (addPropertyAccessor first t pm M kind rt vt desc) := by
  obtain ⟨r, hr, hp, ha⟩ := h
  exact ⟨r, apa_preserves_concrete first t pm M kind rt vt desc N r hr ha, hp, ha⟩

/-- Whatever the targeted name, an `addPropertyAccessor` call keeps a slot
good-or-pending. -/
theorem apa_inv (first : Bool) (t : List (String × EntityInfo))
    (pm : EntityMeta) (M kind : String) (rt vt : Option String) (desc : String)
    (hk : (kind == "") = false) (N : String)
    (h : goodRow N t ∨ pendingRow N t) :
    goodRow N (addPropertyAccessor first t pm M kind rt vt desc) ∨
      pendingRow N (addPropertyAccessor first t pm M kind rt vt desc) := by
  rcases h with h | h
  · exact .inl (apa_pres_good first t pm M kind rt vt desc N h)
  · by_cases hMN : M = N
    · subst hMN
      left
      refine ⟨_, apa_replaces first t pm M kind rt vt desc h, ?_, rfl⟩
      simpa [jsTruthy] using hk
    · right
      simp only [addPropertyAccessor]
      by_cases hcond : ((jsGet M t).isNone ||
          (Option.map (fun x => x.abstract) (jsGet M t)).getD false) = true
      · rw [if_pos hcond]
        unfold pendingRow at h ⊢
        rw [jsGet_jsSet_ne _ _ _ _ hMN]
        exact h
      · rw [if_neg hcond]
        exact h

/-- A call targeting `N` itself turns a good-or-pending slot good. -/
theorem apa_good (first : Bool) (t : List (String × EntityInfo))
    (pm : EntityMeta) (kind : String) (rt vt : Option String) (desc : String)
    (hk : (kind == "") = false) (N : String)
    (h : goodRow N t ∨ pendingRow N t) :
    goodRow N (addPropertyAccessor first t pm N kind rt vt desc) := by
  rcases h with h | h
  · exact apa_pres_good first t pm N kind rt vt desc N h
  · refine ⟨_, apa_replaces first t pm N kind rt vt desc h, ?_, rfl⟩
    simpa [jsTruthy] using hk

/-- The synthesis block for one property is the fold of its call list. -/
theorem synthesizeForProperty_eq_fold (first : Bool)
    (t : List (String × EntityInfo)) (p : String) (pm : EntityMeta) :
    synthesizeForProperty first t p pm = foldCalls first pm t (accessorCalls p pm) := by
  by_cases hB : ((if jsTruthy pm.check then pm.check.getD "" else "any") == "Boolean") = true <;>
  by_cases hA : pm.async = true <;>
    simp [synthesizeForProperty, accessorCalls, foldCalls, hB, hA]

/-- The generated accessor names are the method names of the call list. -/
theorem accessorNamesGen_eq_map (p : String) (pm : EntityMeta) :
    accessorNamesGen p pm = (accessorCalls p pm).map (fun c => c.methodName) := by
  by_cases hB : ((if jsTruthy pm.check then pm.check.getD "" else "any") == "Boolean") = true <;>
  by_cases hA : pm.async = true <;>
    simp [accessorNamesGen, accessorCalls, hB, hA]

/-- Every synthesized accessor kind is a non-empty marker string. -/
theorem accessorCalls_kind_ne (p : String) (pm : EntityMeta) :
    ∀ c ∈ accessorCalls p pm, (c.accessorType == "") = false := by
  intro c hc
  by_cases hB : ((if jsTruthy pm.check then pm.check.getD "" else "any") == "Boolean") = true <;>
  by_cases hA : pm.async = true <;>
    simp [accessorCalls, hB, hA] at hc <;>
    (rcases hc with rfl | rfl | rfl | rfl | rfl | rfl | rfl <;> rfl)

/-- A concrete row survives a whole call-list fold unchanged. -/
theorem foldCalls_pres_concrete (first : Bool) (pm : EntityMeta)
    (calls : List AccessorCall) :
    ∀ (t : List (String × EntityInfo)) (N : String) (r : EntityInfo),
      jsGet N t = some r → r.abstract = false →
      jsGet N (foldCalls first pm t calls) = some r := by
  induction calls with
  | nil => exact fun t N r h _ => h
  | cons c rest ih =>
    intro t N r h hr
    rw [foldCalls, List.foldl_cons]
    exact ih _ N r (apa_preserves_concrete _ _ _ _ _ _ _ _ _ _ h hr) hr

/-- A good row stays good through a whole call-list fold. -/
theorem foldCalls_pres_good (first : Bool) (pm : EntityMeta)
    (calls : List AccessorCall) :
    ∀ (t : List (String × EntityInfo)) (N : String), goodRow N t →
      goodRow N (foldCalls first pm t calls) := by
  induction calls with
  | nil => exact fun t N h => h
  | cons c rest ih =>
    intro t N h
    rw [foldCalls, List.foldl_cons]
    exact ih _ N (apa_pres_good _ _ _ _ _ _ _ _ _ h)

/-- Good-or-pending is preserved by a call-list fold of non-empty kinds. -/
theorem foldCalls_inv (first : Bool) (pm : EntityMeta)
    (calls : List AccessorCall)
    (hk : ∀ c ∈ calls, (c.accessorType == "") = false) :
    ∀ (t : List (String × EntityInfo)) (N : String),
      goodRow N t ∨ pendingRow N t →
      goodRow N (foldCalls first pm t calls) ∨
        pendingRow N (foldCalls first pm t calls) := by
  induction calls with
  | nil => exact fun t N h => h
  | cons c rest ih =>
    intro t N h
    rw [foldCalls, List.foldl_cons]
    exact ih (fun c hc => hk c (List.mem_cons_of_mem _ hc)) _ N
      (apa_inv _ _ _ _ _ _ _ _ (hk c (List.mem_cons_self _ _)) N h)

/-- A good-or-pending slot whose name is targeted by some call in the list is
good after the fold. -/
theorem foldCalls_good (first : Bool) (pm : EntityMeta)
    (calls : List AccessorCall)
    (hk : ∀ c ∈ calls, (c.accessorType == "") = false) :
    ∀ (t : List (String × EntityInfo)) (N : String),
      N ∈ calls.map (fun c => c.methodName) →
      goodRow N t ∨ pendingRow N t →
      goodRow N (foldCalls first pm t calls) := by
  induction calls with
  | nil => intro t N h; cases h
  | cons c rest ih =>
    intro t N hN h
    rw [List.map_cons, List.mem_cons] at hN
    rw [foldCalls, List.foldl_cons]
    rcases hN with rfl | hN
    · exact foldCalls_pres_good first pm rest _ _
        (apa_good _ _ _ _ _ _ _ (hk c (List.mem_cons_self _ _)) _ h)
    · exact ih (fun c hc => hk c (List.mem_cons_of_mem _ hc)) _ N hN
        (apa_inv _ _ _ _ _ _ _ _ (hk c (List.mem_cons_self _ _)) N h)

/-! ## Lemmas about the per-meta synthesis block (`synthNode`) -/

/-- A concrete row survives the synthesis fold over a property list. -/
theorem foldProps_pres_concrete (first : Bool)
    (props : List (String × EntityMeta)) :
    ∀ (t : List (String × EntityInfo)) (N : String) (r : EntityInfo),
      jsGet N t = some r → r.abstract = false →
      jsGet N (props.foldl (fun t q => synthesizeForProperty first t q.1 q.2) t) =
        some r := by
  induction props with
  | nil => exact fun t N r h _ => h
  | cons q rest ih =>
    intro t N r h hr
    rw [List.foldl_cons, synthesizeForProperty_eq_fold]
    exact ih _ N r (foldCalls_pres_concrete first q.2 _ t N r h hr) hr

/-- A good row stays good through the synthesis fold over a property list. -/
theorem foldProps_pres_good (first : Bool)
    (props : List (String × EntityMeta)) :
    ∀ (t : List (String × EntityInfo)) (N : String), goodRow N t →
      goodRow N (props.foldl (fun t q => synthesizeForProperty first t q.1 q.2) t) := by
  induction props with
  | nil => exact fun t N h => h
  | cons q rest ih =>
    intro t N h
    rw [List.foldl_cons, synthesizeForProperty_eq_fold]
    exact ih _ N (foldCalls_pres_good first q.2 _ t N h)

/-- Good-or-pending is preserved by the synthesis fold over a property list. -/
theorem foldProps_inv (first : Bool) (props : List (String × EntityMeta)) :
    ∀ (t : List (String × EntityInfo)) (N : String),
      goodRow N t ∨ pendingRow N t →
      goodRow N (props.foldl (fun t q => synthesizeForProperty first t q.1 q.2) t) ∨
        pendingRow N (props.foldl (fun t q => synthesizeForProperty first t q.1 q.2) t) := by
  induction props with
  | nil => exact fun t N h => h
  | cons q rest ih =>
    intro t N h
    rw [List.foldl_cons, synthesizeForProperty_eq_fold]
    exact ih _ N (foldCalls_inv first q.2 _ (accessorCalls_kind_ne q.1 q.2) t N h)

/-- A good-or-pending slot named by an accessor of some listed property is
good after the synthesis fold. -/
theorem foldProps_good (first : Bool) (props : List (String × EntityMeta))
    (p : String) (pm : EntityMeta) (hp : (p, pm) ∈ props) (N : String)
    (hN : N ∈ accessorNamesGen p pm) (t : List (String × EntityInfo))
    (h : goodRow N t ∨ pendingRow N t) :
    goodRow N (props.foldl (fun t q => synthesizeForProperty first t q.1 q.2) t) := by
  obtain ⟨l1, l2, rfl⟩ := List.append_of_mem hp
  rw [List.foldl_append, List.foldl_cons]
  refine foldProps_pres_good first l2 _ N ?_
  rw [synthesizeForProperty_eq_fold]
  refine foldCalls_good first pm _ (accessorCalls_kind_ne p pm) _ N ?_ ?_
  · rw [← accessorNamesGen_eq_map]
    exact hN
  · exact foldProps_inv first l1 t N h

/-- A concrete row survives `synthNode` unchanged. -/
theorem synthNode_pres_concrete (first : Bool) (d : NodeData)
    (st : ClassEntities) (N : String) (r : EntityInfo)
    (h : jsGet N st.members = some r) (hr : r.abstract = false) :
    jsGet N (synthNode first d st).members = some r := by
  unfold synthNode
  split
  · exact h
  · exact foldProps_pres_concrete first _ _ N r h hr

/-- `synthNode` keeps every member slot good-or-pending. -/
theorem synthNode_inv (first : Bool) (d : NodeData) (st : ClassEntities)
    (N : String) (h : goodRow N st.members ∨ pendingRow N st.members) :
    goodRow N (synthNode first d st).members ∨
      pendingRow N (synthNode first d st).members := by
  unfold synthNode
  split
  · exact h
  · exact foldProps_inv first _ _ N h

/-- `synthNode` makes any good-or-pending slot named by an accessor of one of
the meta's own properties good. -/
theorem synthNode_good (first : Bool) (d : NodeData) (st : ClassEntities)
    (props : List (String × EntityMeta)) (p : String) (pm : EntityMeta)
    (N : String) (hprops : d.properties = some props) (hp : (p, pm) ∈ props)
    (hN : N ∈ accessorNamesGen p pm)
    (h : goodRow N st.members ∨ pendingRow N st.members) :
    goodRow N (synthNode first d st).members := by
  unfold synthNode
  rw [hprops]
  exact foldProps_good first props p pm hp N hN st.members h

/-- **C8** — accessor synthesis never replaces a concrete (non-abstract)
member-table row — a user-supplied accessor member is left unchanged — but it
does fill a slot that is absent or still abstract, leaving a concrete entry
carrying the accessor marker. -/
theorem accessor_synthesis_frame (first : Bool) (d : NodeData)
    (st : ClassEntities) (N : String) :
    (∀ r, jsGet N st.members = some r → r.abstract = false →
      jsGet N (synthNode first d st).members = some r) ∧
    (∀ props p pm, d.properties = some props → (p, pm) ∈ props →
      N ∈ accessorNamesGen p pm → pendingRow N st.members →
      ∃ r', jsGet N (synthNode first d st).members = some r' ∧
        jsTruthy r'.property = true ∧ r'.abstract = false) := by
  constructor
  · exact fun r h hr => synthNode_pres_concrete first d st N r h hr
  · intro props p pm hprops hp hN hpend
    exact synthNode_good first d st props p pm N hprops hp hN (.inr hpend)

/-- **C8 witness** — a concrete user-supplied `getFoo` row survives the
synthesis for property `foo` unchanged, while the absent `setFoo` slot is
filled with a concrete accessor entry. -/
theorem accessor_synthesis_frame_witness :
    (jsGet "getFoo" (synthNode true { className := "D", type := "class", properties := some [("foo", { type := "property", name := "foo", check := some "String" })] } { members := [("getFoo", { access := "public" })] }).members = some { access := "public" }) ∧
    (∃ r', jsGet "setFoo" (synthNode true { className := "D", type := "class", properties := some [("foo", { type := "property", name := "foo", check := some "String" })] } { members := [("getFoo", { access := "public" })] }).members = some r' ∧ jsTruthy r'.property = true ∧ r'.abstract = false) := by
  have h := accessor_synthesis_frame true
    { className := "D", type := "class", properties := some [("foo", { type := "property", name := "foo", check := some "String" })] }
    { members := [("getFoo", { access := "public" })] }
  exact ⟨(h "getFoo").1 { access := "public" } (by decide) rfl,
    (h "setFoo").2 [("foo", { type := "property", name := "foo", check := some "String" })] "foo"
      { type := "property", name := "foo", check := some "String" }
      rfl (List.mem_singleton.mpr rfl) (by decide) (Or.inl (by decide))⟩

/-- **C7 (amended)** — the synthesized getter's pre-filled `@description`
body is the source's canonical text with the property name wrapped in
`<code>` tags (not backticks): it is `getterDescText p`, and the synthesized
row carries it verbatim whenever the getter slot was absent or abstract. -/
theorem getter_description_canonical (first : Bool)
    (t : List (String × EntityInfo)) (p : String) (pm : EntityMeta)
    (h : pendingRow ("get" ++ p.capitalize) t) :
    ∃ r d, jsGet ("get" ++ p.capitalize) (synthesizeForProperty first t p pm) =
        some r ∧
      r.property = some "get" ∧ r.jsdoc = some d ∧
      d.description = [{ name := "@description", body := getterDescText p }] ∧
      getterDescText p =
        "Gets the (computed) value of the property <code>" ++ p ++ "</code>.\n" ++
        "\n" ++
        "For further details take a look at the property definition: \x7b@link #" ++
        p ++ "\x7d." := by
  rw [synthesizeForProperty_eq_fold]
  simp only [accessorCalls]
  rw [foldCalls, List.foldl_cons]
  dsimp only
  have hrow := apa_replaces first t pm ("get" ++ p.capitalize) "get"
    (some (if jsTruthy pm.check then pm.check.getD "" else "any")) none
    (getterDescText p) h
  exact ⟨_, _, foldCalls_pres_concrete first pm _ _ _ _ hrow rfl, rfl, rfl, rfl, rfl⟩

/-- **C7 witness** — for the concrete property `enabled`, the synthesized
getter description is bit-exact the source text, with `<code>` markup and the
blank line. -/
theorem getter_description_canonical_witness :
    (∃ r d, jsGet "getEnabled" (synthesizeForProperty true [] "enabled" { type := "property", name := "enabled", check := some "Boolean" }) = some r ∧
      r.property = some "get" ∧ r.jsdoc = some d ∧
      d.description = [{ name := "@description", body := getterDescText "enabled" }]) ∧
    getterDescText "enabled" =
      "Gets the (computed) value of the property <code>enabled</code>.\n\nFor further details take a look at the property definition: \x7b@link #enabled\x7d." := by
  constructor
  · obtain ⟨r, d, h1, h2, h3, h4, -⟩ := getter_description_canonical true [] "enabled"
      { type := "property", name := "enabled", check := some "Boolean" } (Or.inl (by decide))
    exact ⟨r, d, h1, h2, h3, h4⟩
  · decide

/-- **C7 counterexample** — the claim's §6 canonical form renders the property
name in backticks; the code emits `<code>` tags, so the synthesized getter
description for property `foo` differs from the spec's canonical text. -/
theorem getter_description_backticks_cex :
    ((jsGet "getFoo" (analyseEntities (MetaTree.node { className := "D", type := "class", properties := some [("foo", { type := "property", name := "foo", check := some "String" })] } [] [] [])).members).bind (fun r => r.jsdoc)).map (fun d => d.description.map (fun tag => tag.body)) =
      some [getterDescText "foo"] ∧
    getterDescText "foo" ≠ specGetterDescText "foo" := by
  constructor
  · decide
  · decide

/-- **C9** — the materialization loop's absence test
`!meta.properties[propertyInfo]` indexes the map by the row object (the key
`"[object Object]"`), so it always succeeds: compiling a mixin `M` with its
own property `foo` (declared with `check: "String"`), the merger overwrites
`M`'s own `meta.properties.foo` with the minimal materialized entry, losing
the declared `check` — the entry the claim says must not be materialized
over. -/
theorem property_materialization_overwrites :
    (updateMetaData (MetaTree.node { className := "M", type := "mixin", properties := some [("foo", { type := "property", name := "foo", check := some "String" })] } [] [] [])).properties =
      some [("foo", { type := "property", name := "foo", abstract := false, mixin := true, access := "public", overriddenFrom := none })] ∧
    ((jsGet "foo" ((updateMetaData (MetaTree.node { className := "M", type := "mixin", properties := some [("foo", { type := "property", name := "foo", check := some "String" })] } [] [] [])).properties.getD [])).map (fun e => e.check)) = some none := by
  constructor
  · decide
  · decide

/-! ## Generic lemmas about entry-wise maps and key sets -/

theorem jsGet_mapEntries (f : String → α → α) (ms : List (String × α))
    (N : String) :
    jsGet N (ms.map (fun p => (p.1, f p.1 p.2))) = (jsGet N ms).map (f N) := by
  induction ms with
  | nil => rfl
  | cons p rest ih =>
    rw [List.map_cons, jsGet, jsGet]
    split
    next h =>
      subst h
      rfl
    next h => exact ih

theorem mapEntries_keys (f : String → α → α) (ms : List (String × α)) :
    (ms.map (fun p => (p.1, f p.1 p.2))).map Prod.fst = ms.map Prod.fst := by
  rw [List.map_map]
  rfl

theorem jsGet_eq_none_iff (l : List (String × α)) (N : String) :
    jsGet N l = none ↔ N ∉ l.map Prod.fst := by
  induction l with
  | nil => simp [jsGet]
  | cons p rest ih =>
    rw [jsGet, List.map_cons, List.mem_cons]
    split
    next h =>
      simp [h]
    next h =>
      rw [ih]
      constructor
      · intro hn hm
        rcases hm with hm | hm
        · exact h hm.symm
        · exact hn hm
      · intro hn
        exact fun hm => hn (Or.inr hm)

theorem jsGet_isSome_mem_keys (l : List (String × α)) (N : String)
    (h : (jsGet N l).isSome) : N ∈ l.map Prod.fst := by
  by_contra hn
  rw [← jsGet_eq_none_iff] at hn
  rw [hn] at h
  cases h

/-! ## Key-set preservation of the walk -/

/-- Each `recordEntity` application is the identity or one `jsSet`. -/
theorem recordEntity_cases (s : String) (first : Bool) (d : NodeData)
    (t : List (String × EntityInfo)) (n : String) (em : EntityMeta) :
    recordEntity s first d t n em = t ∨
      ∃ k v, recordEntity s first d t n em = jsSet t k v := by
  unfold recordEntity
  split
  · right; exact ⟨_, _, rfl⟩
  · left; rfl

/-- Each `addPropertyAccessor` application is the identity or one `jsSet`. -/
theorem apa_cases (first : Bool) (t : List (String × EntityInfo))
    (pm : EntityMeta) (M kind : String) (rt vt : Option String) (desc : String) :
    addPropertyAccessor first t pm M kind rt vt desc = t ∨
      ∃ k v, addPropertyAccessor first t pm M kind rt vt desc = jsSet t k v := by
  simp only [addPropertyAccessor]
  split
  · right; exact ⟨_, _, rfl⟩
  · left; rfl

theorem nodupKeys_apa (first : Bool) (t : List (String × EntityInfo))
    (pm : EntityMeta) (M kind : String) (rt vt : Option String) (desc : String)
    (h : (t.map Prod.fst).Nodup) :
    ((addPropertyAccessor first t pm M kind rt vt desc).map Prod.fst).Nodup := by
  rcases apa_cases first t pm M kind rt vt desc with h1 | ⟨k, v, h1⟩
  · rw [h1]; exact h
  · rw [h1]; exact nodupKeys_jsSet _ _ _ h

theorem nodupKeys_foldCalls (first : Bool) (pm : EntityMeta)
    (calls : List AccessorCall) :
    ∀ t, (t.map Prod.fst).Nodup →
      ((foldCalls first pm t calls).map Prod.fst).Nodup := by
  induction calls with
  | nil => exact fun t h => h
  | cons c rest ih =>
    intro t h
    rw [foldCalls, List.foldl_cons]
    exact ih _ (nodupKeys_apa _ _ _ _ _ _ _ _ h)

theorem nodupKeys_synthesizeForProperty (first : Bool) (p : String)
    (pm : EntityMeta) (t : List (String × EntityInfo))
    (h : (t.map Prod.fst).Nodup) :
    ((synthesizeForProperty first t p pm).map Prod.fst).Nodup := by
  rw [synthesizeForProperty_eq_fold]
  exact nodupKeys_foldCalls first pm _ t h

theorem recordNode_nodup (first : Bool) (d : NodeData) (st : ClassEntities)
    (h : TableNodup st) : TableNodup (recordNode first d st) := by
  obtain ⟨h1, h2⟩ := h
  constructor
  · refine nodupKeys_condSet_fold _ ?_ _ _ h1
    intro m x
    exact recordEntity_cases "members" first d m x.1 x.2
  · refine nodupKeys_condSet_fold _ ?_ _ _ h2
    intro m x
    exact recordEntity_cases "properties" first d m x.1 x.2

theorem nodupKeys_foldProps (first : Bool) (props : List (String × EntityMeta)) :
    ∀ t : List (String × EntityInfo), (t.map Prod.fst).Nodup →
      ((props.foldl (fun t q => synthesizeForProperty first t q.1 q.2) t).map
        Prod.fst).Nodup := by
  induction props with
  | nil => exact fun t h => h
  | cons q rest ih =>
    intro t h
    rw [List.foldl_cons]
    exact ih _ (nodupKeys_synthesizeForProperty first q.1 q.2 t h)

theorem synthNode_nodup (first : Bool) (d : NodeData) (st : ClassEntities)
    (h : TableNodup st) : TableNodup (synthNode first d st) := by
  obtain ⟨h1, h2⟩ := h
  unfold synthNode
  split
  · exact ⟨h1, h2⟩
  · exact ⟨nodupKeys_foldProps first _ _ h1, h2⟩

/-! ## The preservation template for the recursive walk -/

/-- Any property of the working table preserved by both `recordNode` and
`synthNode` is preserved by the whole recursive walk (by strong induction on
the tree size, since the two walk functions recurse into one another). -/
theorem walk_preserves_aux (P : ClassEntities → Prop)
    (hrec : ∀ first d st, P st → P (recordNode first d st))
    (hsyn : ∀ first d st, P st → P (synthNode first d st)) :
    ∀ n : Nat,
      (∀ m : MetaTree, sizeOf m ≤ n → ∀ first st, P st → P (walkOne first st m)) ∧
      (∀ ms : List MetaTree, sizeOf ms ≤ n → ∀ st, P st → P (walkList st ms)) := by
  intro n
  induction n using Nat.strong_induction_on with
  | _ n ih =>
    constructor
    · intro m hm first st hP
      match m with
      | .node d ifs mxs sups =>
        rw [walkOne]
        have hsz : 1 + sizeOf d + sizeOf ifs + sizeOf mxs + sizeOf sups ≤ n := by
          simpa using hm
        have hifs : sizeOf ifs < n := by omega
        have hmxs : sizeOf mxs < n := by omega
        have hsups : sizeOf sups < n := by omega
        exact hsyn first d _
          ((ih (sizeOf sups) hsups).2 sups le_rfl _
            ((ih (sizeOf mxs) hmxs).2 mxs le_rfl _
              ((ih (sizeOf ifs) hifs).2 ifs le_rfl _ (hrec first d st hP))))
    · intro ms hms st hP
      match ms with
      | [] =>
        rw [walkList]
        exact hP
      | m :: rest =>
        rw [walkList]
        have hsz : 1 + sizeOf m + sizeOf rest ≤ n := by
          simpa using hms
        have hm : sizeOf m < n := by omega
        have hrest : sizeOf rest < n := by omega
        exact (ih (sizeOf rest) hrest).2 rest le_rfl _
          ((ih (sizeOf m) hm).1 m le_rfl false st hP)

/-- Specialization of the template to whole trees. -/
theorem walk_preserves (P : ClassEntities → Prop)
    (hrec : ∀ first d st, P st → P (recordNode first d st))
    (hsyn : ∀ first d st, P st → P (synthNode first d st))
    (m : MetaTree) (first : Bool) (st : ClassEntities) (hP : P st) :
    P (walkOne first st m) :=
  (walk_preserves_aux P hrec hsyn (sizeOf m)).1 m le_rfl first st hP

/-- The working table built by the entity merge has distinct keys in both
sub-tables. -/
theorem analyseEntities_nodup (root : MetaTree) :
    TableNodup (analyseEntities root) :=
  walk_preserves TableNodup recordNode_nodup synthNode_nodup root true {}
    ⟨List.nodup_nil, List.nodup_nil⟩

/-! ## Lemmas about the members write-back -/

theorem matValue_overriddenFrom (mn : String) (mi : EntityInfo) :
    (matValue mn mi).overriddenFrom = mi.overriddenFrom := by
  unfold matValue
  dsimp only
  split_ifs <;> rfl

theorem matValue_appearsIn (mn : String) (mi : EntityInfo) :
    (matValue mn mi).appearsIn = none := by
  unfold matValue
  dsimp only
  split_ifs <;> first | rfl | simp_all [objLenTruthy]

theorem matValue_property (mn : String) (mi : EntityInfo) :
    (matValue mn mi).property = (if jsTruthy mi.property then mi.property else none) := by
  unfold matValue
  dsimp only
  split_ifs <;> rfl

theorem matValue_abstract (mn : String) (mi : EntityInfo) :
    (matValue mn mi).abstract = mi.abstract := by
  unfold matValue
  dsimp only
  split_ifs <;> rfl

theorem matValue_type (mn : String) (mi : EntityInfo) :
    (matValue mn mi).type = "function" := by
  unfold matValue
  dsimp only
  split_ifs <;> rfl

/-- A materialize step leaves every other name's entry untouched. -/
theorem matStep_frame (st : List (String × EntityMeta) × Bool) (mn : String)
    (mi : EntityInfo) (N : String) (h : mn ≠ N) :
    jsGet N (materializeMemberStep st mn mi).1 = jsGet N st.1 := by
  unfold materializeMemberStep
  rcases hmm : jsGet mn st.1 with _ | mm <;> simp only [hmm] <;> (try dsimp only)
  · split
    · dsimp only
      rw [jsGet_jsSet_ne _ _ _ _ h]
    · rfl
  · rw [if_neg (by simp)]
    split
    · exact jsGet_jsSet_ne _ _ _ _ h
    · rfl

/-- A materialize step fills an absent, flagged entry with `matValue`. -/
theorem matStep_new (st : List (String × EntityMeta) × Bool) (mn : String)
    (mi : EntityInfo) (h0 : jsGet mn st.1 = none)
    (hflags : (mi.abstract || mi.mixin || jsTruthy mi.property) = true) :
    jsGet mn (materializeMemberStep st mn mi).1 = some (matValue mn mi) := by
  unfold materializeMemberStep
  simp only [h0]
  try dsimp only
  rw [if_pos (by simp [hflags])]
  exact jsGet_jsSet_self ..

/-- A materialize step keeps an existing entry, at most upgrading its type;
`overriddenFrom`, `property` and `appearsIn` survive. -/
theorem matStep_old (st : List (String × EntityMeta) × Bool) (mn : String)
    (mi : EntityInfo) (N : String) (mm : EntityMeta)
    (h : jsGet N st.1 = some mm) :
    ∃ mm', jsGet N (materializeMemberStep st mn mi).1 = some mm' ∧
      mm'.overriddenFrom = mm.overriddenFrom ∧ mm'.property = mm.property ∧
      mm'.appearsIn = mm.appearsIn := by
  by_cases hmn : mn = N
  · subst hmn
    unfold materializeMemberStep
    simp only [h]
    try dsimp only
    rw [if_neg (by simp)]
    split
    · exact ⟨_, jsGet_jsSet_self .., rfl, rfl, rfl⟩
    · exact ⟨mm, h, rfl, rfl, rfl⟩
  · rw [matStep_frame st mn mi N hmn]
    exact ⟨mm, h, rfl, rfl, rfl⟩

/-- The second members pass never loses an existing key. -/
theorem materializeMembers_pres_isSome (ce : List (String × EntityInfo)) :
    ∀ (ms : List (String × EntityMeta)) (ab : Bool) (N : String),
      (jsGet N ms).isSome →
      (jsGet N (materializeMembers ce ms ab).1).isSome := by
  induction ce with
  | nil => exact fun ms ab N h => h
  | cons q rest ih =>
    intro ms ab N h
    rw [materializeMembers, List.foldl_cons]
    rw [Option.isSome_iff_exists] at h
    obtain ⟨mm, hmm⟩ := h
    obtain ⟨mm', hmm', -⟩ := matStep_old (ms, ab) q.1 q.2 N mm hmm
    have := ih (materializeMemberStep (ms, ab) q.1 q.2).1
      (materializeMemberStep (ms, ab) q.1 q.2).2 N (by rw [hmm']; rfl)
    rw [materializeMembers] at this
    exact this

/-- Prefixes of the working table that do not mention `N` leave `N`'s entry
unchanged through the second members pass. -/
theorem materializeMembers_frame (ce : List (String × EntityInfo)) :
    ∀ (ms : List (String × EntityMeta)) (ab : Bool) (N : String),
      N ∉ ce.map Prod.fst →
      jsGet N (materializeMembers ce ms ab).1 = jsGet N ms := by
  induction ce with
  | nil => exact fun ms ab N _ => rfl
  | cons q rest ih =>
    intro ms ab N hN
    rw [List.map_cons, List.mem_cons] at hN
    rw [materializeMembers, List.foldl_cons]
    have h1 : q.1 ≠ N := fun h => hN (Or.inl h.symm)
    have := ih (materializeMemberStep (ms, ab) q.1 q.2).1
      (materializeMemberStep (ms, ab) q.1 q.2).2 N (fun h => hN (Or.inr h))
    rw [materializeMembers] at this
    rw [this, matStep_frame (ms, ab) q.1 q.2 N h1]

/-- The second members pass materializes a flagged table member that is absent
from the meta. -/
theorem materializeMembers_adds (ce : List (String × EntityInfo)) :
    ∀ (ms : List (String × EntityMeta)) (ab : Bool) (N : String)
      (mi : EntityInfo),
      jsGet N ms = none → jsGet N ce = some mi →
      (mi.abstract || mi.mixin || jsTruthy mi.property) = true →
      (jsGet N (materializeMembers ce ms ab).1).isSome := by
  induction ce with
  | nil => intro ms ab N mi _ h; cases h
  | cons q rest ih =>
    intro ms ab N mi hms hce hflags
    rw [materializeMembers, List.foldl_cons]
    rw [jsGet] at hce
    split at hce
    next heq =>
      cases hce
      subst heq
      have hstep := matStep_new (ms, ab) q.1 q.2 hms hflags
      have := materializeMembers_pres_isSome rest
        (materializeMemberStep (ms, ab) q.1 q.2).1
        (materializeMemberStep (ms, ab) q.1 q.2).2 q.1 (by rw [hstep]; rfl)
      rw [materializeMembers] at this
      exact this
    next hne =>
      have h1 : q.1 ≠ N := hne
      have hms' : jsGet N (materializeMemberStep (ms, ab) q.1 q.2).1 = none := by
        rw [matStep_frame (ms, ab) q.1 q.2 N h1]
        exact hms
      have := ih (materializeMemberStep (ms, ab) q.1 q.2).1
        (materializeMemberStep (ms, ab) q.1 q.2).2 N mi hms' hce hflags
      rw [materializeMembers] at this
      exact this

/-- With distinct table keys, the materialized entry for an absent flagged
member is exactly `matValue`. -/
theorem materializeMembers_value (ce : List (String × EntityInfo)) :
    ∀ (ms : List (String × EntityMeta)) (ab : Bool) (N : String)
      (mi : EntityInfo),
      (ce.map Prod.fst).Nodup →
      jsGet N ms = none → jsGet N ce = some mi →
      (mi.abstract || mi.mixin || jsTruthy mi.property) = true →
      jsGet N (materializeMembers ce ms ab).1 = some (matValue N mi) := by
  induction ce with
  | nil => intro ms ab N mi _ _ h; cases h
  | cons q rest ih =>
    intro ms ab N mi hnd hms hce hflags
    rw [List.map_cons, List.nodup_cons] at hnd
    rw [materializeMembers, List.foldl_cons]
    rw [jsGet] at hce
    split at hce
    next heq =>
      cases hce
      subst heq
      have hstep := matStep_new (ms, ab) q.1 q.2 hms hflags
      have := materializeMembers_frame rest
        (materializeMemberStep (ms, ab) q.1 q.2).1
        (materializeMemberStep (ms, ab) q.1 q.2).2 q.1 hnd.1
      rw [materializeMembers] at this
      rw [this, hstep]
    next hne =>
      have h1 : q.1 ≠ N := hne
      have hms' : jsGet N (materializeMemberStep (ms, ab) q.1 q.2).1 = none := by
        rw [matStep_frame (ms, ab) q.1 q.2 N h1]
        exact hms
      have := ih (materializeMemberStep (ms, ab) q.1 q.2).1
        (materializeMemberStep (ms, ab) q.1 q.2).2 N mi hnd.2 hms' hce hflags
      rw [materializeMembers] at this
      exact this

/-- `cleanupEntry` forces `overriddenFrom` to its truthy-or-absent form. -/
theorem cleanupEntry_overriddenFrom (mm : EntityMeta) :
    (cleanupEntry mm).overriddenFrom = jsOrNull mm.overriddenFrom := by
  unfold cleanupEntry jsOrNull
  dsimp only
  rcases mm.appearsIn with _ | a <;> dsimp only <;> split_ifs <;>
    first | rfl | simp_all

theorem cleanupEntry_appearsIn_none (mm : EntityMeta) (h : mm.appearsIn = none) :
    (cleanupEntry mm).appearsIn = none := by
  unfold cleanupEntry
  rw [h]
  try dsimp only
  split_ifs <;> exact h

theorem cleanupEntry_property (mm : EntityMeta) :
    (cleanupEntry mm).property = mm.property := by
  unfold cleanupEntry
  dsimp only
  rcases mm.appearsIn with _ | a <;> dsimp only <;> split_ifs <;> rfl

theorem cleanupEntry_type (mm : EntityMeta) :
    (cleanupEntry mm).type = mm.type := by
  unfold cleanupEntry
  dsimp only
  rcases mm.appearsIn with _ | a <;> dsimp only <;> split_ifs <;> rfl

theorem jsGet_cleanupMembers (ms : List (String × EntityMeta)) (N : String) :
    jsGet N (cleanupMembers ms) = (jsGet N ms).map cleanupEntry :=
  jsGet_mapEntries (fun _ mm => cleanupEntry mm) ms N

theorem jsGet_updateExistingMembers (ce : List (String × EntityInfo))
    (ms : List (String × EntityMeta)) (N : String) :
    jsGet N (updateExistingMembers ce ms) =
      (jsGet N ms).map (updateExistingMember ce N) :=
  jsGet_mapEntries (updateExistingMember ce) ms N

/-- The `members` key of the saved meta, spelled out. -/
theorem saved_members_eq (root : MetaTree) :
    (updateMetaData root).members =
      (if (cleanupMembers (materializeMembers (analyseEntities root).members
          (updateExistingMembers (analyseEntities root).members root.data.members)
          root.data.abstract).1).isEmpty then none
       else some (cleanupMembers (materializeMembers (analyseEntities root).members
          (updateExistingMembers (analyseEntities root).members root.data.members)
          root.data.abstract).1)) := rfl

/-- Whatever entry survives the second members pass at `N` is in the saved
meta. -/
theorem savedContains_of_mat (root : MetaTree) (N : String)
    (h : (jsGet N (materializeMembers (analyseEntities root).members
        (updateExistingMembers (analyseEntities root).members root.data.members)
        root.data.abstract).1).isSome) :
    savedContains N (updateMetaData root) := by
  have h2 : (jsGet N (cleanupMembers (materializeMembers (analyseEntities root).members
      (updateExistingMembers (analyseEntities root).members root.data.members)
      root.data.abstract).1)).isSome := by
    rw [jsGet_cleanupMembers]
    rcases hx : jsGet N (materializeMembers (analyseEntities root).members
        (updateExistingMembers (analyseEntities root).members root.data.members)
        root.data.abstract).1 with _ | v
    · rw [hx] at h
      cases h
    · rfl
  unfold savedContains
  rw [saved_members_eq]
  split
  next hemp =>
    rw [List.isEmpty_iff] at hemp
    rw [hemp] at h2
    cases h2
  next =>
    rw [Option.getD_some]
    exact jsGet_isSome_mem_keys _ _ h2

/-- **C2 (amended)** — for every property `P` of a compiled class and every
accessor name the synthesis generates for it (`get`/`set`/`reset`, `is` iff
the check type is Boolean, async variants iff the property is async), the
saved meta's members contain that name, unless the merged table resolves the
name to a plain concrete inherited method — concrete, not mixin-supplied,
with no accessor marker, and absent from the class's own members. -/
theorem property_accessors_presence (root : MetaTree)
    (props : List (String × EntityMeta)) (p : String) (pm : EntityMeta)
    (N : String) (hprops : root.data.properties = some props)
    (hp : (p, pm) ∈ props) (hN : N ∈ accessorNamesGen p pm) :
    savedContains N (updateMetaData root) ∨
      ∃ r, jsGet N (analyseEntities root).members = some r ∧
        jsTruthy r.property = false ∧ r.mixin = false ∧ r.abstract = false ∧
        jsGet N root.data.members = none := by
  rcases root with ⟨d, ifs, mxs, sups⟩
  simp only [MetaTree.data] at hprops ⊢
  have hwalk : analyseEntities (MetaTree.node d ifs mxs sups) =
      synthNode true d (walkList (walkList (walkList (recordNode true d {}) ifs) mxs) sups) := by
    rw [analyseEntities, walkOne]
  set st' := walkList (walkList (walkList (recordNode true d {}) ifs) mxs) sups with hst'
  have hfill : pendingRow N st'.members →
      savedContains N (updateMetaData (MetaTree.node d ifs mxs sups)) := by
    intro hpend
    obtain ⟨r, hr, hprop, -⟩ :=
      synthNode_good true d st' props p pm N hprops hp hN (Or.inr hpend)
    apply savedContains_of_mat
    rcases hm0 : jsGet N d.members with _ | mm0
    · refine materializeMembers_adds _ _ _ N r ?_ ?_ ?_
      · rw [jsGet_updateExistingMembers]
        simp only [MetaTree.data]
        rw [hm0]
        rfl
      · rw [hwalk]
        exact hr
      · simp [hprop]
    · apply materializeMembers_pres_isSome
      rw [jsGet_updateExistingMembers]
      simp only [MetaTree.data]
      rw [hm0]
      rfl
  rcases hrow : jsGet N st'.members with _ | r
  · exact Or.inl (hfill (Or.inl hrow))
  · by_cases habs : r.abstract = true
    · exact Or.inl (hfill (Or.inr ⟨r, hrow, habs⟩))
    · rw [Bool.not_eq_true] at habs
      have hpres : jsGet N (synthNode true d st').members = some r :=
        synthNode_pres_concrete true d st' N r hrow habs
      by_cases hflag : (r.abstract || r.mixin || jsTruthy r.property) = true
      · left
        apply savedContains_of_mat
        rcases hm0 : jsGet N d.members with _ | mm0
        · refine materializeMembers_adds _ _ _ N r ?_ ?_ hflag
          · rw [jsGet_updateExistingMembers]
            simp only [MetaTree.data]
            rw [hm0]
            rfl
          · rw [hwalk]
            exact hpres
        · apply materializeMembers_pres_isSome
          rw [jsGet_updateExistingMembers]
          simp only [MetaTree.data]
          rw [hm0]
          rfl
      · rcases hm0 : jsGet N d.members with _ | mm0
        · right
          simp only [habs, Bool.false_or, Bool.or_eq_true, not_or,
            Bool.not_eq_true] at hflag
          exact ⟨r, by rw [hwalk]; exact hpres, hflag.2, hflag.1, habs, rfl⟩
        · left
          apply savedContains_of_mat
          apply materializeMembers_pres_isSome
          rw [jsGet_updateExistingMembers]
          simp only [MetaTree.data]
          rw [hm0]
          rfl

/-- **C2 witness** — for a class with Boolean property `enabled`, the
generated name `isEnabled` lands in the saved members (the first disjunct). -/
theorem property_accessors_presence_witness :
    savedContains "isEnabled" (updateMetaData (MetaTree.node { className := "S3", type := "class", properties := some [("enabled", { type := "property", name := "enabled", check := some "Boolean" })] } [] [] [])) ∨
      ∃ r, jsGet "isEnabled" (analyseEntities (MetaTree.node { className := "S3", type := "class", properties := some [("enabled", { type := "property", name := "enabled", check := some "Boolean" })] } [] [] [])).members = some r ∧
        jsTruthy r.property = false ∧ r.mixin = false ∧ r.abstract = false ∧
        jsGet "isEnabled" (MetaTree.node { className := "S3", type := "class", properties := some [("enabled", { type := "property", name := "enabled", check := some "Boolean" })] } [] [] []).data.members = none :=
  property_accessors_presence _ _ "enabled"
    { type := "property", name := "enabled", check := some "Boolean" }
    "isEnabled" rfl (List.mem_singleton.mpr rfl) (by decide)

/-- **C2 counterexample** — `is<P>` membership is not equivalent to
`T = Boolean`: a user-supplied function member `isFoo` on a class whose
property `foo` is declared with `check: "String"` is in the saved members
even though the check type is not Boolean. -/
theorem property_accessors_iff_cex :
    savedContains "isFoo" (updateMetaData (MetaTree.node { className := "D", type := "class", members := [("isFoo", { type := "function", name := "isFoo" })], properties := some [("foo", { type := "property", name := "foo", check := some "String" })] } [] [] [])) ∧
    (some "String" : Option String) ≠ some "Boolean" := by
  constructor
  · unfold savedContains
    decide
  · decide

/-- **C10 (amended)** — a member slot replaced by accessor synthesis gets
`overriddenFrom = (entityInfo && entityInfo.appearsIn[0]) || null`, i.e. the
`"0"` key of the prior row's `appearsIn` (null for ordinarily-named
ancestors, but the ancestor *type* string for an ancestor literally named
`"0"`); and a merger-synthesized member materialized into the saved meta
carries no `appearsIn` key and has `overriddenFrom` equal to the
truthy-or-absent form of its table row's value. -/
theorem synthesized_member_no_overriddenFrom :
    (∀ (first : Bool) (t : List (String × EntityInfo)) (pm : EntityMeta)
        (M kind : String) (rt vt : Option String) (desc : String),
      pendingRow M t →
      ∃ r, jsGet M (addPropertyAccessor first t pm M kind rt vt desc) = some r ∧
        r.overriddenFrom =
          jsOrNull ((jsGet M t).bind (fun e => jsGet "0" e.appearsIn))) ∧
    (∀ (root : MetaTree) (N : String) (mi : EntityInfo),
      jsGet N root.data.members = none →
      jsGet N (analyseEntities root).members = some mi →
      jsTruthy mi.property = true →
      ∃ ms, (updateMetaData root).members = some ms ∧
        ∃ mm, jsGet N ms = some mm ∧ mm.appearsIn = none ∧
          mm.overriddenFrom = jsOrNull mi.overriddenFrom ∧
          mm.property = mi.property) := by
  constructor
  · intro first t pm M kind rt vt desc h
    exact ⟨_, apa_replaces first t pm M kind rt vt desc h, rfl⟩
  · intro root N mi hm0 hrow hprop
    have hnodup := (analyseEntities_nodup root).1
    have hms1 : jsGet N (updateExistingMembers (analyseEntities root).members
        root.data.members) = none := by
      rw [jsGet_updateExistingMembers, hm0]
      rfl
    have hmat := materializeMembers_value (analyseEntities root).members
      (updateExistingMembers (analyseEntities root).members root.data.members)
      root.data.abstract N mi hnodup hms1 hrow (by simp [hprop])
    have hclean : jsGet N (cleanupMembers (materializeMembers
        (analyseEntities root).members
        (updateExistingMembers (analyseEntities root).members root.data.members)
        root.data.abstract).1) = some (cleanupEntry (matValue N mi)) := by
      rw [jsGet_cleanupMembers, hmat]
      rfl
    refine ⟨cleanupMembers (materializeMembers (analyseEntities root).members
        (updateExistingMembers (analyseEntities root).members root.data.members)
        root.data.abstract).1, ?_, ?_⟩
    · rw [saved_members_eq]
      rw [if_neg ?_]
      intro hemp
      rw [List.isEmpty_iff] at hemp
      rw [hemp] at hclean
      cases hclean
    · refine ⟨cleanupEntry (matValue N mi), hclean, ?_, ?_, ?_⟩
      · exact cleanupEntry_appearsIn_none _ (matValue_appearsIn N mi)
      · rw [cleanupEntry_overriddenFrom, matValue_overriddenFrom]
      · rw [cleanupEntry_property, matValue_property, if_pos hprop]

/-- **C10 witness** — a fresh slot synthesized from scratch has a null
`overriddenFrom`, and for a class `C` with property `foo` implementing an
interface `I` that declares `getFoo`, the materialized synthesized accessor
is saved without `appearsIn` and with the table row's (null) `overriddenFrom`. -/
theorem synthesized_member_no_overriddenFrom_witness :
    (∃ r, jsGet "getX" (addPropertyAccessor true [] {} "getX" "get" none none "d") = some r ∧
      r.overriddenFrom = jsOrNull ((jsGet "getX" ([] : List (String × EntityInfo))).bind (fun e => jsGet "0" e.appearsIn))) ∧
    (∃ ms, (updateMetaData (MetaTree.node { className := "C", type := "class", properties := some [("foo", { type := "property", name := "foo", check := some "String" })] } [MetaTree.node { className := "I", type := "interface", members := [("getFoo", { type := "function", name := "getFoo" })] } [] [] []] [] [])).members = some ms ∧
      ∃ mm, jsGet "getFoo" ms = some mm ∧ mm.appearsIn = none ∧
        mm.overriddenFrom = jsOrNull ((jsGet "getFoo" (analyseEntities (MetaTree.node { className := "C", type := "class", properties := some [("foo", { type := "property", name := "foo", check := some "String" })] } [MetaTree.node { className := "I", type := "interface", members := [("getFoo", { type := "function", name := "getFoo" })] } [] [] []] [] [])).members).getD {}).overriddenFrom ∧
        mm.property = ((jsGet "getFoo" (analyseEntities (MetaTree.node { className := "C", type := "class", properties := some [("foo", { type := "property", name := "foo", check := some "String" })] } [MetaTree.node { className := "I", type := "interface", members := [("getFoo", { type := "function", name := "getFoo" })] } [] [] []] [] [])).members).getD {}).property) := by
  have h := synthesized_member_no_overriddenFrom
  refine ⟨h.1 true [] {} "getX" "get" none none "d" (Or.inl rfl), ?_⟩
  exact h.2 _ "getFoo" _ rfl (by decide) (by decide)

/-- **C10 counterexample** — with an ancestor interface literally named `"0"`
declaring `getFoo`, the synthesized accessor reads `appearsIn[0]` and the
saved member carries `overriddenFrom = "interface"` (the ancestor's *type*
string): a synthesized member written *with* an `overriddenFrom` key. -/
theorem synthesized_member_overriddenFrom_zero_cex :
    (jsGet "getFoo" ((updateMetaData (MetaTree.node { className := "E", type := "class", properties := some [("foo", { type := "property", name := "foo", check := some "String" })] } [MetaTree.node { className := "0", type := "interface", members := [("getFoo", { type := "function", name := "getFoo" })] } [] [] []] [] [])).members.getD [])).map (fun m => (m.overriddenFrom, m.property)) = some (some "interface", some "get") := by
  decide

/-! ## The overriddenFrom computation of the entity merge -/

/-- One row update of the entity loop: `overriddenFrom` becomes the visited
meta's class name exactly when the visit is not of the class itself and the
row had none yet (lines 530-531); every other branch leaves it alone. -/
theorem entityUpd_overriddenFrom (first : Bool) (d : NodeData) (N : String)
    (a : Option EntityInfo) (em : EntityMeta) :
    (entityUpd first d N a em).overriddenFrom =
      if !first && (rowOvf a).isNone then some d.className else rowOvf a := by
  cases a with
  | none =>
    simp only [entityUpd, rowOvf, Option.none_bind,
      apply_ite (fun x : EntityInfo => x.overriddenFrom)]
    cases first <;> simp
  | some e =>
    simp only [entityUpd, rowOvf, Option.some_bind,
      apply_ite (fun x : EntityInfo => x.overriddenFrom)]
    cases first <;> simp

theorem rowStepEntries_cons (requireFn first : Bool) (d : NodeData) (N : String)
    (a : Option EntityInfo) (e : String × EntityMeta)
    (L : List (String × EntityMeta)) :
    rowStepEntries requireFn first d N a (e :: L) =
      rowStepEntries requireFn first d N
        (if e.1 == N && (!requireFn || e.2.type == "function") then
          some (entityUpd first d N a e.2)
        else a) L := rfl

theorem definesIn_cons (requireFn : Bool) (N : String) (e : String × EntityMeta)
    (L : List (String × EntityMeta)) :
    definesIn requireFn N (e :: L) =
      ((e.1 == N && (!requireFn || e.2.type == "function")) ||
        definesIn requireFn N L) := by
  simp [definesIn, List.any_cons]

/-- Over one section list, the row's `overriddenFrom` becomes the visited
meta's class name exactly when the visit is not of the class itself, the
section defines `N`, and the row had none yet. -/
theorem rowStepEntries_overriddenFrom (requireFn first : Bool) (d : NodeData)
    (N : String) :
    ∀ (L : List (String × EntityMeta)) (a : Option EntityInfo),
      rowOvf (rowStepEntries requireFn first d N a L) =
        if (!first && definesIn requireFn N L) && (rowOvf a).isNone then
          some d.className
        else rowOvf a := by
  intro L
  induction L with
  | nil =>
    intro a
    simp [rowStepEntries, definesIn]
  | cons e L ih =>
    intro a
    rw [rowStepEntries_cons, definesIn_cons]
    by_cases hc : (e.1 == N && (!requireFn || e.2.type == "function")) = true
    · rw [if_pos hc, ih, hc]
      have hE : rowOvf (some (entityUpd first d N a e.2)) =
          if !first && (rowOvf a).isNone then some d.className else rowOvf a := by
        simpa [rowOvf] using entityUpd_overriddenFrom first d N a e.2
      rw [hE]
      cases first with
      | true => simp
      | false =>
        cases hA : (rowOvf a).isNone with
        | true => simp [hA]
        | false => simp [hA]
    · have hc' : (e.1 == N && (!requireFn || e.2.type == "function")) = false := by
        simpa using hc
      rw [if_neg hc, ih, hc']
      simp

theorem memberRowStep_overriddenFrom (N : String) (a : Option EntityInfo)
    (q : Bool × NodeData) :
    rowOvf (memberRowStep N a q) =
      if (!q.1 && definesIn true N q.2.members) && (rowOvf a).isNone then
        some q.2.className
      else rowOvf a :=
  rowStepEntries_overriddenFrom true q.1 q.2 N q.2.members a

theorem propertyRowStep_overriddenFrom (N : String) (a : Option EntityInfo)
    (q : Bool × NodeData) :
    rowOvf (propertyRowStep N a q) =
      if (!q.1 && definesIn false N (q.2.properties.getD [])) && (rowOvf a).isNone then
        some q.2.className
      else rowOvf a :=
  rowStepEntries_overriddenFrom false q.1 q.2 N (q.2.properties.getD []) a

/-- Folding first-hit-wins row steps over a visit sequence: the resulting
`overriddenFrom` names the first visited meta satisfying the hit predicate. -/
theorem foldRow_ovf (step : Option EntityInfo → Bool × NodeData → Option EntityInfo)
    (pred : Bool × NodeData → Bool)
    (h : ∀ a q, rowOvf (step a q) =
      if pred q && (rowOvf a).isNone then some q.2.className else rowOvf a) :
    ∀ (L : List (Bool × NodeData)) (a : Option EntityInfo),
      rowOvf (L.foldl step a) =
        if (rowOvf a).isNone then
          (L.find? pred).map (fun q => q.2.className)
        else rowOvf a := by
  intro L
  induction L with
  | nil =>
    intro a
    cases hA : rowOvf a <;> simp [hA]
  | cons q L ih =>
    intro a
    rw [List.foldl_cons, ih, h]
    cases hp : pred q with
    | true =>
      cases hA : (rowOvf a).isNone with
      | true => simp [hA, List.find?_cons, hp]
      | false => simp [hA, List.find?_cons, hp]
    | false => simp [List.find?_cons, hp]

/-- Recording a meta's `members` section acts on each members row as the
single-row fold over that section. -/
theorem jsGet_recordMembers (first : Bool) (d : NodeData) (N : String) :
    ∀ (L : List (String × EntityMeta)) (tbl : List (String × EntityInfo)),
      jsGet N (L.foldl (fun t p => recordEntity "members" first d t p.1 p.2) tbl) =
        rowStepEntries true first d N (jsGet N tbl) L := by
  intro L
  induction L with
  | nil => intro tbl; rfl
  | cons e L ih =>
    intro tbl
    rw [List.foldl_cons, ih, rowStepEntries_cons]
    congr 1
    by_cases hf : (e.2.type == "function") = true
    · by_cases hk : e.1 = N
      · subst hk
        rw [recordEntity, if_pos (by simp [hf]), jsGet_jsSet_self,
          if_pos (by simp [hf])]
      · rw [recordEntity, if_pos (by simp [hf]), jsGet_jsSet_ne _ _ _ _ hk,
          if_neg (by simp [hk])]
    · have hf' : (e.2.type == "function") = false := by simpa using hf
      rw [recordEntity, if_neg (by rw [hf']; decide), if_neg (by simp [hf'])]

/-- Recording a meta's `properties` section acts on each properties row as the
single-row fold over that section (every entry is processed). -/
theorem jsGet_recordProps (first : Bool) (d : NodeData) (N : String) :
    ∀ (L : List (String × EntityMeta)) (tbl : List (String × EntityInfo)),
      jsGet N (L.foldl (fun t p => recordEntity "properties" first d t p.1 p.2) tbl) =
        rowStepEntries false first d N (jsGet N tbl) L := by
  intro L
  induction L with
  | nil => intro tbl; rfl
  | cons e L ih =>
    intro tbl
    rw [List.foldl_cons, ih, rowStepEntries_cons]
    congr 1
    by_cases hk : e.1 = N
    · subst hk
      rw [recordEntity, if_pos (by simp), jsGet_jsSet_self, if_pos (by simp)]
    · rw [recordEntity, if_pos (by simp), jsGet_jsSet_ne _ _ _ _ hk,
        if_neg (by simp [hk])]

/-- Recording one visited meta acts on each members row as `memberRowStep`. -/
theorem recordNode_member_row (first : Bool) (d : NodeData) (st : ClassEntities)
    (N : String) :
    jsGet N (recordNode first d st).members =
      memberRowStep N (jsGet N st.members) (first, d) := by
  simp only [recordNode]
  exact jsGet_recordMembers first d N d.members st.members

/-- Recording one visited meta acts on each properties row as
`propertyRowStep`. -/
theorem recordNode_property_row (first : Bool) (d : NodeData) (st : ClassEntities)
    (N : String) :
    jsGet N (recordNode first d st).properties =
      propertyRowStep N (jsGet N st.properties) (first, d) := by
  simp only [recordNode]
  exact jsGet_recordProps first d N (d.properties.getD []) st.properties

/-- `addPropertyAccessor` leaves every other method name's row unchanged. -/
theorem apa_frame_ne (first : Bool) (t : List (String × EntityInfo))
    (pm : EntityMeta) (M kind : String) (rt vt : Option String) (desc : String)
    (N : String) (h : M ≠ N) :
    jsGet N (addPropertyAccessor first t pm M kind rt vt desc) = jsGet N t := by
  simp only [addPropertyAccessor]
  split
  · exact jsGet_jsSet_ne _ _ _ _ h
  · rfl

/-- A call-list fold does not touch rows outside its method names. -/
theorem foldCalls_frame (first : Bool) (pm : EntityMeta) (N : String) :
    ∀ (calls : List AccessorCall) (t : List (String × EntityInfo)),
      N ∉ calls.map (fun c => c.methodName) →
      jsGet N (foldCalls first pm t calls) = jsGet N t := by
  intro calls
  induction calls with
  | nil => exact fun t _ => rfl
  | cons c rest ih =>
    intro t hN
    rw [List.map_cons, List.mem_cons] at hN
    push_neg at hN
    rw [foldCalls, List.foldl_cons]
    have := ih (addPropertyAccessor first t pm c.methodName c.accessorType
      c.returnType c.valueType c.desc) hN.2
    rw [foldCalls] at this
    rw [this, apa_frame_ne _ _ _ _ _ _ _ _ _ (fun hx => hN.1 hx.symm)]

/-- Synthesis for one property leaves rows outside its generated names
unchanged. -/
theorem synthesizeForProperty_frame (first : Bool)
    (t : List (String × EntityInfo)) (p : String) (pm : EntityMeta) (N : String)
    (hN : N ∉ accessorNamesGen p pm) :
    jsGet N (synthesizeForProperty first t p pm) = jsGet N t := by
  rw [synthesizeForProperty_eq_fold]
  apply foldCalls_frame
  rw [← accessorNamesGen_eq_map]
  exact hN

/-- Folding synthesis over a property section leaves rows outside all its
generated names unchanged. -/
theorem foldProps_frame (first : Bool) (N : String) :
    ∀ (props : List (String × EntityMeta)) (t : List (String × EntityInfo)),
      (∀ q ∈ props, N ∉ accessorNamesGen q.1 q.2) →
      jsGet N (props.foldl (fun t p => synthesizeForProperty first t p.1 p.2) t) =
        jsGet N t := by
  intro props
  induction props with
  | nil => exact fun t _ => rfl
  | cons q rest ih =>
    intro t hq
    rw [List.foldl_cons,
      ih _ (fun x hx => hq x (List.mem_cons_of_mem _ hx)),
      synthesizeForProperty_frame _ _ _ _ _ (hq q (List.mem_cons_self _ _))]

/-- The per-meta synthesis block leaves members rows outside the meta's
generated names unchanged. -/
theorem synthNode_member_frame (first : Bool) (d : NodeData) (st : ClassEntities)
    (N : String) (hN : N ∉ nodeSynthNames d) :
    jsGet N (synthNode first d st).members = jsGet N st.members := by
  unfold synthNode
  cases hp : d.properties with
  | none => rfl
  | some props =>
    dsimp only
    apply foldProps_frame
    intro q hq hcontra
    apply hN
    rw [nodeSynthNames, hp]
    exact List.mem_flatMap.mpr ⟨q, hq, hcontra⟩

/-- The synthesis block never touches the properties table. -/
theorem synthNode_properties (first : Bool) (d : NodeData) (st : ClassEntities) :
    (synthNode first d st).properties = st.properties := by
  unfold synthNode
  cases d.properties <;> rfl

theorem listSynthNames_cons (q : Bool × NodeData) (L : List (Bool × NodeData)) :
    listSynthNames (q :: L) = nodeSynthNames q.2 ++ listSynthNames L := by
  simp [listSynthNames]

theorem listSynthNames_append (L1 L2 : List (Bool × NodeData)) :
    listSynthNames (L1 ++ L2) = listSynthNames L1 ++ listSynthNames L2 := by
  simp [listSynthNames]

/-- The recursive walk computes each members row (for names no visited
synthesis targets) and each properties row (unconditionally) as the fold of
the per-meta row steps over the recording order; by strong induction on tree
size, since the two walk functions recurse into one another. -/
theorem walk_row_aux (N : String) :
    ∀ n : Nat,
      (∀ m : MetaTree, sizeOf m ≤ n → ∀ (first : Bool) (st : ClassEntities),
        N ∉ listSynthNames (preorder first m) →
        jsGet N (walkOne first st m).members =
          (preorder first m).foldl (memberRowStep N) (jsGet N st.members)) ∧
      (∀ ms : List MetaTree, sizeOf ms ≤ n → ∀ st : ClassEntities,
        N ∉ listSynthNames (preorderList ms) →
        jsGet N (walkList st ms).members =
          (preorderList ms).foldl (memberRowStep N) (jsGet N st.members)) ∧
      (∀ m : MetaTree, sizeOf m ≤ n → ∀ (first : Bool) (st : ClassEntities),
        jsGet N (walkOne first st m).properties =
          (preorder first m).foldl (propertyRowStep N) (jsGet N st.properties)) ∧
      (∀ ms : List MetaTree, sizeOf ms ≤ n → ∀ st : ClassEntities,
        jsGet N (walkList st ms).properties =
          (preorderList ms).foldl (propertyRowStep N) (jsGet N st.properties)) := by
  intro n
  induction n using Nat.strong_induction_on with
  | _ n ih =>
    refine ⟨?_, ?_, ?_, ?_⟩
    · intro m hm first st hsyn
      match m with
      | .node d ifs mxs sups =>
        have hsz : 1 + sizeOf d + sizeOf ifs + sizeOf mxs + sizeOf sups ≤ n := by
          simpa using hm
        have hifs : sizeOf ifs < n := by omega
        have hmxs : sizeOf mxs < n := by omega
        have hsups : sizeOf sups < n := by omega
        rw [preorder] at hsyn ⊢
        rw [listSynthNames_cons, listSynthNames_append, listSynthNames_append]
          at hsyn
        simp only [List.mem_append] at hsyn
        push_neg at hsyn
        obtain ⟨h0, h1, h2, h3⟩ := hsyn
        rw [walkOne, synthNode_member_frame _ _ _ _ h0,
          (ih (sizeOf sups) hsups).2.1 sups le_rfl _ h3,
          (ih (sizeOf mxs) hmxs).2.1 mxs le_rfl _ h2,
          (ih (sizeOf ifs) hifs).2.1 ifs le_rfl _ h1,
          recordNode_member_row,
          List.foldl_cons, List.foldl_append, List.foldl_append]
    · intro ms hms st hsyn
      match ms with
      | [] => rfl
      | m :: rest =>
        have hsz : 1 + sizeOf m + sizeOf rest ≤ n := by simpa using hms
        have hm : sizeOf m < n := by omega
        have hrest : sizeOf rest < n := by omega
        rw [preorderList] at hsyn ⊢
        rw [listSynthNames_append] at hsyn
        simp only [List.mem_append] at hsyn
        push_neg at hsyn
        rw [walkList,
          (ih (sizeOf rest) hrest).2.1 rest le_rfl _ hsyn.2,
          (ih (sizeOf m) hm).1 m le_rfl false st hsyn.1,
          List.foldl_append]
    · intro m hm first st
      match m with
      | .node d ifs mxs sups =>
        have hsz : 1 + sizeOf d + sizeOf ifs + sizeOf mxs + sizeOf sups ≤ n := by
          simpa using hm
        have hifs : sizeOf ifs < n := by omega
        have hmxs : sizeOf mxs < n := by omega
        have hsups : sizeOf sups < n := by omega
        rw [preorder, walkOne, synthNode_properties,
          (ih (sizeOf sups) hsups).2.2.2 sups le_rfl _,
          (ih (sizeOf mxs) hmxs).2.2.2 mxs le_rfl _,
          (ih (sizeOf ifs) hifs).2.2.2 ifs le_rfl _,
          recordNode_property_row,
          List.foldl_cons, List.foldl_append, List.foldl_append]
    · intro ms hms st
      match ms with
      | [] => rfl
      | m :: rest =>
        have hsz : 1 + sizeOf m + sizeOf rest ≤ n := by simpa using hms
        have hm : sizeOf m < n := by omega
        have hrest : sizeOf rest < n := by omega
        rw [preorderList, walkList,
          (ih (sizeOf rest) hrest).2.2.2 rest le_rfl _,
          (ih (sizeOf m) hm).2.2.1 m le_rfl false st,
          List.foldl_append]

/-- The members row of the full merge, for a name that no visited synthesis
targets, is the fold of the per-meta row steps over the recording order. -/
theorem analyseEntities_member_row (root : MetaTree) (N : String)
    (hsyn : N ∉ listSynthNames (preorder true root)) :
    jsGet N (analyseEntities root).members =
      (preorder true root).foldl (memberRowStep N) none := by
  have h := (walk_row_aux N (sizeOf root)).1 root le_rfl true {} hsyn
  rw [analyseEntities, h]
  rfl

/-- The properties row of the full merge is the fold of the per-meta row steps
over the recording order. -/
theorem analyseEntities_property_row (root : MetaTree) (N : String) :
    jsGet N (analyseEntities root).properties =
      (preorder true root).foldl (propertyRowStep N) none := by
  have h := (walk_row_aux N (sizeOf root)).2.2.1 root le_rfl true {}
  rw [analyseEntities, h]
  rfl

/-- The merged table's member `overriddenFrom` is the first non-self definer
in recording order (for a name that no visited synthesis targets). -/
theorem table_member_ovf (root : MetaTree) (N : String)
    (hsyn : N ∉ listSynthNames (preorder true root)) :
    rowOvf (jsGet N (analyseEntities root).members) = firstMemberDefiner N root := by
  rw [analyseEntities_member_row root N hsyn,
    foldRow_ovf (memberRowStep N) (fun q => !q.1 && definesIn true N q.2.members)
      (fun a q => memberRowStep_overriddenFrom N a q) (preorder true root) none]
  simp [firstMemberDefiner, rowOvf]

/-- The merged table's property `overriddenFrom` is the first non-self definer
in recording order. -/
theorem table_property_ovf (root : MetaTree) (N : String) :
    rowOvf (jsGet N (analyseEntities root).properties) =
      firstPropertyDefiner N root := by
  rw [analyseEntities_property_row root N,
    foldRow_ovf (propertyRowStep N)
      (fun q => !q.1 && definesIn false N (q.2.properties.getD []))
      (fun a q => propertyRowStep_overriddenFrom N a q) (preorder true root) none]
  simp [firstPropertyDefiner, rowOvf]

/-- With distinct keys, membership determines the lookup. -/
theorem jsGet_of_mem_nodup (l : List (String × α)) (k : String) (v : α)
    (hnd : (l.map Prod.fst).Nodup) (h : (k, v) ∈ l) : jsGet k l = some v := by
  induction l with
  | nil => cases h
  | cons p rest ih =>
    rw [List.map_cons, List.nodup_cons] at hnd
    rw [List.mem_cons] at h
    rcases h with h | h
    · rw [← h]
      simp [jsGet]
    · rw [jsGet]
      split
      next heq =>
        exfalso
        apply hnd.1
        rw [heq]
        exact List.mem_map_of_mem Prod.fst h
      next => exact ih hnd.2 h

/-- `mergeSignature` only touches the jsdoc. -/
theorem mergeSignature_overriddenFrom (src : Option JsDoc) (m : EntityMeta) :
    (mergeSignature src m).overriddenFrom = m.overriddenFrom := by
  unfold mergeSignature
  cases src with
  | none => rfl
  | some s =>
    dsimp only
    split_ifs <;> rfl

/-- The first members pass keeps an absent `overriddenFrom` absent when the
table row has none. -/
theorem updateExistingMember_ovf_none (ce : List (String × EntityInfo))
    (N : String) (mm : EntityMeta)
    (hrow : rowOvf (jsGet N ce) = none)
    (hmm : mm.overriddenFrom = none) :
    (updateExistingMember ce N mm).overriddenFrom = none := by
  unfold updateExistingMember
  split
  · rcases hr : jsGet N ce with _ | r
    · exact hmm
    · rw [mergeSignature_overriddenFrom]
      rw [hr] at hrow
      simpa [rowOvf] using hrow
  · exact hmm

/-- A materialize step preserves the none-`overriddenFrom` invariant of the
row `N`, given the working-table entries at `N` have none. -/
theorem matStep_ovf_inv (st : List (String × EntityMeta) × Bool) (mn : String)
    (mi : EntityInfo) (N : String)
    (h1 : mn = N → mi.overriddenFrom = none)
    (h2 : ∀ v, jsGet N st.1 = some v → v.overriddenFrom = none) :
    ∀ mm, jsGet N (materializeMemberStep st mn mi).1 = some mm →
      mm.overriddenFrom = none := by
  intro mm hmm
  by_cases hmn : mn = N
  · subst hmn
    unfold materializeMemberStep at hmm
    rcases hP : jsGet mn st.1 with _ | mm0
    · rw [hP] at hmm
      dsimp only at hmm
      by_cases hfl : (mi.abstract || mi.mixin || jsTruthy mi.property) = true
      · rw [if_pos (by simp [hfl])] at hmm
        dsimp only at hmm
        rw [jsGet_jsSet_self] at hmm
        cases hmm
        rw [matValue_overriddenFrom]
        exact h1 rfl
      · rw [if_neg (by simp [hfl])] at hmm
        dsimp only at hmm
        rw [hP] at hmm
        cases hmm
    · have hv := h2 mm0 hP
      rw [hP] at hmm
      dsimp only at hmm
      rw [if_neg (by simp)] at hmm
      split at hmm
      · rw [jsGet_jsSet_self] at hmm
        cases hmm
        exact hv
      · rw [hP] at hmm
        cases hmm
        exact hv
  · rw [matStep_frame st mn mi N hmn] at hmm
    exact h2 mm hmm

/-- The second members pass preserves the none-`overriddenFrom` invariant of
the row `N`. -/
theorem materializeMembers_ovf_inv (N : String) :
    ∀ (ce : List (String × EntityInfo)) (ms : List (String × EntityMeta))
      (ab : Bool),
      (∀ q ∈ ce, q.1 = N → q.2.overriddenFrom = none) →
      (∀ v, jsGet N ms = some v → v.overriddenFrom = none) →
      ∀ mm, jsGet N (materializeMembers ce ms ab).1 = some mm →
        mm.overriddenFrom = none := by
  intro ce
  induction ce with
  | nil => exact fun ms ab _ h2 mm hmm => h2 mm hmm
  | cons q rest ih =>
    intro ms ab h1 h2 mm hmm
    rw [materializeMembers, List.foldl_cons] at hmm
    have hstep : ∀ v, jsGet N (materializeMemberStep (ms, ab) q.1 q.2).1 = some v →
        v.overriddenFrom = none :=
      matStep_ovf_inv (ms, ab) q.1 q.2 N
        (fun hq => h1 q (List.mem_cons_self _ _) hq) h2
    have hrec := ih (materializeMemberStep (ms, ab) q.1 q.2).1
      (materializeMemberStep (ms, ab) q.1 q.2).2
      (fun x hx hxN => h1 x (List.mem_cons_of_mem _ hx) hxN) hstep mm
    rw [materializeMembers] at hrec
    exact hrec hmm

/-- When no visited ancestor defines the member name and the class's own meta
carries no prior `overriddenFrom`, the saved entry has no `overriddenFrom`
key. -/
theorem saved_member_ovf_none (root : MetaTree) (N : String)
    (hsyn : N ∉ listSynthNames (preorder true root))
    (hnone : firstMemberDefiner N root = none)
    (hfresh : ∀ e ∈ root.data.members, e.2.overriddenFrom = none)
    (ms : List (String × EntityMeta)) (mm : EntityMeta)
    (hms : (updateMetaData root).members = some ms)
    (hmm : jsGet N ms = some mm) :
    mm.overriddenFrom = none := by
  have hrow : rowOvf (jsGet N (analyseEntities root).members) = none := by
    rw [table_member_ovf root N hsyn, hnone]
  rw [saved_members_eq] at hms
  split at hms
  · cases hms
  next =>
    cases hms
    rw [jsGet_cleanupMembers] at hmm
    rcases hx : jsGet N (materializeMembers (analyseEntities root).members
        (updateExistingMembers (analyseEntities root).members root.data.members)
        root.data.abstract).1 with _ | mm'
    · rw [hx] at hmm
      cases hmm
    · rw [hx] at hmm
      cases hmm
      have h1 : ∀ q ∈ (analyseEntities root).members, q.1 = N →
          q.2.overriddenFrom = none := by
        intro q hq hqN
        have hqmem : (q.1, q.2) ∈ (analyseEntities root).members := by
          simpa using hq
        have hget := jsGet_of_mem_nodup _ q.1 q.2
          (analyseEntities_nodup root).1 hqmem
        rw [hqN] at hget
        rw [hget] at hrow
        simpa [rowOvf] using hrow
      have h2 : ∀ v, jsGet N (updateExistingMembers (analyseEntities root).members
          root.data.members) = some v → v.overriddenFrom = none := by
        intro v hv
        rw [jsGet_updateExistingMembers] at hv
        rcases h0 : jsGet N root.data.members with _ | mm0
        · rw [h0] at hv
          cases hv
        · rw [h0] at hv
          cases hv
          exact updateExistingMember_ovf_none _ _ _ hrow
            (hfresh (N, mm0) (jsGet_mem _ _ _ h0))
      have hinv := materializeMembers_ovf_inv N (analyseEntities root).members
        (updateExistingMembers (analyseEntities root).members root.data.members)
        root.data.abstract h1 h2 mm' hx
      rw [cleanupEntry_overriddenFrom, hinv]
      rfl

/-- **C1** (corrected).  Over the entity merge of `analyseClassEntities` and
the write-back of `updateMetaData`: (1) for a member name that no visited
synthesis block targets, the merged table's `overriddenFrom` is exactly the
class name of the first meta in recording order (self, then interfaces,
mixins and super classes, recursively) that is visited as an ancestor — not
as the class itself — and defines the name as a `function` member, and is
`none` when no such ancestor exists; (2) the same holds unconditionally for
every property name over the `properties` sections; (3) when additionally no
visited ancestor defines the member name and the class's own meta entries
carry no prior `overriddenFrom`, the entry saved for the name has no
`overriddenFrom` key.  (For accessor names the synthesis targets, the
original claim fails: see the counterexample.) -/
theorem overriddenFrom_first_definer (root : MetaTree) (N : String) :
    (N ∉ listSynthNames (preorder true root) →
      rowOvf (jsGet N (analyseEntities root).members) = firstMemberDefiner N root) ∧
    rowOvf (jsGet N (analyseEntities root).properties) =
      firstPropertyDefiner N root ∧
    (N ∉ listSynthNames (preorder true root) →
      firstMemberDefiner N root = none →
      (∀ e ∈ root.data.members, e.2.overriddenFrom = none) →
      ∀ (ms : List (String × EntityMeta)) (mm : EntityMeta),
        (updateMetaData root).members = some ms → jsGet N ms = some mm →
        mm.overriddenFrom = none) :=
  ⟨fun hsyn => table_member_ovf root N hsyn,
   table_property_ovf root N,
   fun hsyn hnone hfresh ms mm hms hmm =>
     saved_member_ovf_none root N hsyn hnone hfresh ms mm hms hmm⟩

theorem overriddenFrom_first_definer_witness :
    rowOvf (jsGet "foo" (analyseEntities ovfDemoTree).members) =
      firstMemberDefiner "foo" ovfDemoTree ∧
    firstMemberDefiner "foo" ovfDemoTree = some "B" ∧
    rowOvf (jsGet "foo" (analyseEntities ovfDemoTree).properties) =
      firstPropertyDefiner "foo" ovfDemoTree ∧
    (∀ (ms : List (String × EntityMeta)) (mm : EntityMeta),
      (updateMetaData ovfDemoTree).members = some ms →
      jsGet "bar" ms = some mm → mm.overriddenFrom = none) ∧
    ((jsGet "bar" ((updateMetaData ovfDemoTree).members.getD [])).map
      (fun m => m.overriddenFrom)) = some none :=
  ⟨(overriddenFrom_first_definer ovfDemoTree "foo").1 (by decide),
   by decide,
   (overriddenFrom_first_definer ovfDemoTree "foo").2.1,
   fun ms mm hms hmm =>
     (overriddenFrom_first_definer ovfDemoTree "bar").2.2 (by decide) (by decide)
       (by decide) ms mm hms hmm,
   by decide⟩

/-- The first-definer claim fails as stated for accessor-synthesized names:
for class `C` with property `foo` implementing interface `I`, which defines
`getFoo`, the first non-self definer of `getFoo` is `I`, yet the merged
table's `getFoo` row exists with no `overriddenFrom` — the synthesis block
replaced the interface row and reset the field. -/
theorem overriddenFrom_first_definer_cex :
    firstMemberDefiner "getFoo" ovfSynthClobberTree = some "I" ∧
    (jsGet "getFoo" (analyseEntities ovfSynthClobberTree).members).isSome = true ∧
    rowOvf (jsGet "getFoo" (analyseEntities ovfSynthClobberTree).members) =
      none := by
  refine ⟨by decide, by decide, by decide⟩

end Analyser
